import Mathlib

/-! Multi-objective shortest paths on a mutable graph.

A shallow embedding of `src/src/graph.cpp` (class `Graph`, `isNonDominated`) and of the
definitions in `src/include/graph.h`.

Conventions of the embedding.

* `std::vector<T>` is `List T`; `v[i]` on a vector is `List.getD` with the default written at
  the place of use.  An index that is out of range is undefined behaviour in the C++ program;
  every theorem that depends on such an access carries the hypothesis that rules it out.
* `double` and `float` values are elements of a linearly ordered type `α` with a zero and an
  addition (no NaN).  The engine is defined for any such addition, so also for one that
  rounds as the addition of doubles does.  Theorems that need exact arithmetic take `α` to be
  a linearly ordered additive commutative group.  Concrete runs are evaluated over `Int`.
* The counter `int n_edges` is an integer; the C++ counter agrees with it as long as it stays
  in `[INT_MIN, INT_MAX]`.  A theorem that states the value after one increment carries the
  hypothesis that the counter is below `INT_MAX` (signed overflow is undefined behaviour).
* Node identifiers (`int` in the source) are natural numbers; the field `to` of `Edge` is
  written `to_` and the parameters `from`, `to` are written `frm`, `dst` (reserved words).
* `std::unordered_map<int, std::unordered_map<int, size_t>>` is a function
  `Nat → Nat → Option Nat` (`none` = key absent).
* The `while (!pq.empty())` loop is a step function iterated under a fuel bound; running out of
  fuel is reported as `none`.
-/

set_option autoImplicit false
set_option linter.unusedSectionVars false
set_option linter.unusedVariables false

namespace Mosp

/-! ## Data model (`graph.h`) -/

/-- An edge `struct Edge { int to; std::vector<double> weights; }`. -/
structure Edge (α : Type) where
  to_ : Nat
  weights : List α
  deriving DecidableEq, Repr

/-- A path record `struct Path { std::vector<float> objectives; std::vector<int> nodes; }`. -/
structure Path (α : Type) where
  objectives : List α
  nodes : List Nat
  deriving DecidableEq, Repr

/-- The private members of `class Graph`. -/
structure Graph (α : Type) where
  adjList : List (List (Edge α))
  n_nodes : Nat
  n_edges : Int
  n_objectives : Nat
  edgeIndex : Nat → Nat → Option Nat

/-- A cost vector, `using Path = std::vector<double>` inside `computeParetoFronts`. -/
abbrev Cost (α : Type) := List α

/-- The per-node fronts, `std::vector<std::vector<Path>>`. -/
abbrev Fronts (α : Type) := List (List (Cost α))

/-- The frontier, `std::priority_queue<std::pair<Path, int>, ..., std::greater<>>`, as the list
of its entries; only the minimum is ever observed. -/
abbrev Frontier (α : Type) := List (Cost α × Nat)

namespace Graph

variable {α : Type}

/-! ## Construction and mutation (`graph.cpp`, lines 9, 70-108, 139-142) -/

/-- The constructor `Graph::Graph() : n_nodes(0), n_edges(0), n_objectives(1) {}`. -/
def default : Graph α :=
  { adjList := [], n_nodes := 0, n_edges := 0, n_objectives := 1, edgeIndex := fun _ _ => none }

/-- The call `adjList.resize(n)`: truncate, or pad with empty lists. -/
def resizeAdj (adj : List (List (Edge α))) (n : Nat) : List (List (Edge α)) :=
  adj.take n ++ List.replicate (n - adj.length) []

/-- The method `Graph::setNumNodes`. -/
def setNumNodes (g : Graph α) (n : Nat) : Graph α :=
  { g with n_nodes := n, adjList := resizeAdj g.adjList n }

/-- The statement `adjList[from]` read. -/
def adj (g : Graph α) (u : Nat) : List (Edge α) := g.adjList.getD u []

/-- The method `Graph::neighbors`. -/
def neighbors (g : Graph α) (node : Nat) : List (Edge α) := g.adjList.getD node []

/-- The method `Graph::numNodes`. -/
def numNodes (g : Graph α) : Nat := g.n_nodes

/-- The method `Graph::numEdges`. -/
def numEdges (g : Graph α) : Int := g.n_edges

/-- The assignment `edgeIndex[from][to] = i`. -/
def setIndex (idx : Nat → Nat → Option Nat) (frm dst i : Nat) : Nat → Nat → Option Nat :=
  fun a b => if a = frm ∧ b = dst then some i else idx a b

/-- The call `edgeIndex[from].erase(to)`. -/
def eraseIndex (idx : Nat → Nat → Option Nat) (frm dst : Nat) : Nat → Nat → Option Nat :=
  fun a b => if a = frm ∧ b = dst then none else idx a b

/-- The method `Graph::addEdge`: push the edge, index its position, count it. -/
def addEdge (g : Graph α) (frm dst : Nat) (weights : List α) : Graph α :=
  let edges := g.adj frm ++ [{ to_ := dst, weights := weights }]
  { g with
    adjList := g.adjList.set frm edges
    edgeIndex := setIndex g.edgeIndex frm dst (edges.length - 1)
    n_edges := g.n_edges + 1 }

/-- The loop `for (size_t i = 0; i < edges.size(); ++i) edgeIndex[from][edges[i].to] = i;`,
started at position `i`. -/
def rebuildIndex (frm : Nat) :
    List (Edge α) → Nat → (Nat → Nat → Option Nat) → (Nat → Nat → Option Nat)
  | [], _, idx => idx
  | e :: es, i, idx => rebuildIndex frm es (i + 1) (setIndex idx frm e.to_ i)

/-- The method `Graph::removeEdge`. -/
def removeEdge (g : Graph α) (frm dst : Nat) : Graph α :=
  match g.edgeIndex frm dst with
  | none => g
  | some idx =>
    let edges := (g.adj frm).eraseIdx idx
    { g with
      adjList := g.adjList.set frm edges
      edgeIndex := rebuildIndex frm edges 0 (eraseIndex g.edgeIndex frm dst)
      n_edges := g.n_edges - 1 }

/-- The assignment `edges[idx].weights = new_weights` on one adjacency list. -/
def setWeights : List (Edge α) → Nat → List α → List (Edge α)
  | [], _, _ => []
  | e :: es, 0, w => { e with weights := w } :: es
  | e :: es, i + 1, w => e :: setWeights es i w

/-- The method `Graph::updateEdgeWeight`. -/
def updateEdgeWeight (g : Graph α) (frm dst : Nat) (new_weights : List α) : Graph α :=
  match g.edgeIndex frm dst with
  | none => g
  | some idx => { g with adjList := g.adjList.set frm (setWeights (g.adj frm) idx new_weights) }

end Graph

/-- A mutating call on a graph. -/
inductive Mutation (α : Type) where
  | addEdge (frm dst : Nat) (weights : List α)
  | removeEdge (frm dst : Nat)
  | updateEdgeWeight (frm dst : Nat) (new_weights : List α)

/-- The argument `from` of a mutating call. -/
def Mutation.source {α : Type} : Mutation α → Nat
  | .addEdge frm _ _ => frm
  | .removeEdge frm _ => frm
  | .updateEdgeWeight frm _ _ => frm

/-- The graph after one mutating call. -/
def Graph.applyMutation {α : Type} (g : Graph α) : Mutation α → Graph α
  | .addEdge frm dst w => g.addEdge frm dst w
  | .removeEdge frm dst => g.removeEdge frm dst
  | .updateEdgeWeight frm dst w => g.updateEdgeWeight frm dst w

/-- The graph after a sequence of mutating calls, first call first. -/
def Graph.applyAll {α : Type} (g : Graph α) (ms : List (Mutation α)) : Graph α :=
  ms.foldl Graph.applyMutation g

/-- The index agrees with the adjacency lists: an indexed position is in range and holds an
edge with the indexed target, and every stored edge has its target as a key. -/
def IndexConsistent {α : Type} (g : Graph α) : Prop :=
  (∀ frm dst i, g.edgeIndex frm dst = some i →
    i < (g.neighbors frm).length ∧
      ((g.neighbors frm)[i]?).map (fun e => e.to_) = some dst) ∧
  ∀ frm, ∀ e ∈ g.neighbors frm, ∃ i, g.edgeIndex frm e.to_ = some i

/-! ## The batch engine (`Graph::computeParetoFronts`, lines 144-188) -/

section Engine

variable {α : Type} [LinearOrder α] [Add α] [Zero α]

/-- The body of the lambda `dominates`, with the flag `strictly_better` as an argument.  The
loop runs over the indices of `a`; when `b` is shorter the C++ reads out of bounds, and the
model stops with the flag. -/
def dominatesLoop : Cost α → Cost α → Bool → Bool
  | [], _, sb => sb
  | _ :: _, [], sb => sb
  | a :: as, b :: bs, sb =>
    if b < a then false else dominatesLoop as bs (if a < b then true else sb)

/-- The lambda `dominates` of `computeParetoFronts`. -/
def dominates (a b : Cost α) : Bool := dominatesLoop a b false

/-- The comparison `std::vector::operator<` (lexicographic). -/
def lexLt : Cost α → Cost α → Bool
  | [], [] => false
  | [], _ :: _ => true
  | _ :: _, [] => false
  | a :: as, b :: bs => if a < b then true else if b < a then false else lexLt as bs

/-- The comparison `std::pair::operator<` on frontier entries. -/
def entryLt (p q : Cost α × Nat) : Bool :=
  lexLt p.1 q.1 || (!lexLt q.1 p.1 && decide (p.2 < q.2))

/-- The least entry of a non-empty frontier, the value of `pq.top()` under `std::greater<>`. -/
def minEntry : Cost α × Nat → Frontier α → Cost α × Nat
  | x, [] => x
  | x, y :: ys => minEntry (if entryLt y x then y else x) ys

/-- The call `pq.push(x)`. -/
def pqPush (pq : Frontier α) (x : Cost α × Nat) : Frontier α := x :: pq

/-- The pair `pq.top(); pq.pop()`: the least entry and the frontier without one copy of it. -/
def pqPop : Frontier α → Option ((Cost α × Nat) × Frontier α)
  | [] => none
  | x :: xs => some (minEntry x xs, (x :: xs).erase (minEntry x xs))

/-- The vector `std::vector<double>(m, 0.0)`. -/
def zeros (m : Nat) : Cost α := List.replicate m 0

/-- The loop `for (int i = 0; i < m; ++i) new_cost[i] = cost[i] + edge.weights[i];`. -/
def newCost (m : Nat) (cost w : Cost α) : Cost α :=
  (List.range m).map (fun i => cost.getD i 0 + w.getD i 0)

/-- The read `fronts[v]`. -/
def frontAt (fr : Fronts α) (v : Nat) : List (Cost α) := fr.getD v []

/-- The scan of `fronts[edge.to_]` that sets `dominated`. -/
def isDominatedIn (pf : List (Cost α)) (c : Cost α) : Bool :=
  pf.any (fun existing => dominates existing c || decide (existing = c))

/-- The body of `for (const auto& edge : adjList[u])` for one edge: the state is the fronts and
the frontier. -/
def relax (m : Nat) (cost : Cost α) (st : Fronts α × Frontier α) (edge : Edge α) :
    Fronts α × Frontier α :=
  let new_cost := newCost m cost edge.weights
  let pf := frontAt st.1 edge.to_
  if isDominatedIn pf new_cost then st
  else
    (st.1.set edge.to_ (pf.filter (fun p => !dominates new_cost p) ++ [new_cost]),
     pqPush st.2 (new_cost, edge.to_))

/-- One iteration of `while (!pq.empty())`: `none` when the frontier is empty. -/
def step (g : Graph α) (st : Fronts α × Frontier α) : Option (Fronts α × Frontier α) :=
  match pqPop st.2 with
  | none => none
  | some ((cost, u), rest) => some ((g.adj u).foldl (relax g.n_objectives cost) (st.1, rest))

/-- The loop `while (!pq.empty())` under a bound on the number of iterations: the fronts when
the frontier empties within the bound, `none` otherwise. -/
def mainLoop (g : Graph α) : Nat → Fronts α × Frontier α → Option (Fronts α)
  | 0, _ => none
  | fuel + 1, st =>
    match step g st with
    | none => some st.1
    | some st1 => mainLoop g fuel st1

/-- The state before the main loop: `fronts[source] = {0}`, `pq = {(0, source)}`. -/
def initState (g : Graph α) (source : Nat) : Fronts α × Frontier α :=
  let fronts : Fronts α := List.replicate g.numNodes []
  (fronts.set source (frontAt fronts source ++ [zeros g.n_objectives]),
   pqPush [] (zeros g.n_objectives, source))

/-- The loop `for (int node : owned_nodes) pareto_fronts[node] = fronts[node];`. -/
def copyOwned (fronts : Fronts α) (owned_nodes : List Nat) (pareto_fronts : Fronts α) :
    Fronts α :=
  owned_nodes.foldl (fun acc node => acc.set node (frontAt fronts node)) pareto_fronts

/-- The call `v.assign(n, x)`: whatever `v` held, it now holds `n` copies of `x`. -/
def vecAssign {β : Type} (_v : List β) (n : Nat) (x : β) : List β := List.replicate n x

/-- The method `Graph::computeParetoFronts`.  The reference parameter `pareto_fronts` is an
argument (its value at the call) and a result; the graph after the call is a result too. -/
def Graph.computeParetoFronts (g : Graph α) (owned_nodes : List Nat) (source : Nat)
    (pareto_fronts : Fronts α) (fuel : Nat) : Option (Graph α × Fronts α) :=
  match mainLoop g fuel (initState g source) with
  | none => none
  | some fronts => some (g, copyOwned fronts owned_nodes (vecAssign pareto_fronts g.numNodes []))

/-- The function `isNonDominated`, inner loop: the flags `dominates` and `strictly_better`
after scanning `p.objectives` against `candidate.objectives`. -/
def scanFlags : List α → List α → Bool → Bool × Bool
  | [], _, sb => (true, sb)
  | _ :: _, [], sb => (true, sb)
  | p :: ps, c :: cs, sb =>
    let sb1 := if p < c then true else sb
    if c < p then (false, sb1) else scanFlags ps cs sb1

/-- The function `isNonDominated` (lines 190-200). -/
def isNonDominated (candidate : Path α) : List (Path α) → Bool
  | [] => true
  | p :: rest =>
    let fl := scanFlags p.objectives candidate.objectives false
    if fl.1 && fl.2 then false else isNonDominated candidate rest

end Engine

section Scenario

/-- The four-node, two-objective graph of the concrete scenarios before its edges are added:
the state `loadFromMetis(file, 2)` leaves for a file whose header is `4 0` and that lists no
neighbour (`n_objectives = 2`, `adjList.assign(4, {})`, `n_edges = 0`, empty index).  The
default constructor alone leaves `n_objectives = 1`. -/
def emptyFour : Graph Int :=
  { adjList := [[], [], [], []], n_nodes := 4, n_edges := 0, n_objectives := 2,
    edgeIndex := fun _ _ => none }

/-- The scenario graph: edges `0->1 [1,5]`, `0->2 [5,1]`, `1->3 [1,1]`, `2->3 [1,1]` added with
`addEdge` in that order. -/
def diamond : Graph Int :=
  (((emptyFour.addEdge 0 1 [1, 5]).addEdge 0 2 [5, 1]).addEdge 1 3 [1, 1]).addEdge 2 3 [1, 1]

end Scenario



/-! ## Specification vocabulary -/

section Vocabulary

variable {α : Type} [LinearOrderedAddCommGroup α]

/-- Component-wise order on cost vectors: same length and `a[i] ≤ b[i]` for every `i`. -/
def VLe (a b : Cost α) : Prop := List.Forall₂ (fun x y => x ≤ y) a b

/-- Dominance as the specification words it: `a[i] ≤ b[i]` for every objective `i` and
`a[i] < b[i]` for at least one. -/
def Dominates (a b : Cost α) : Prop :=
  a.length = b.length ∧ (∀ i, i < a.length → a.getD i 0 ≤ b.getD i 0) ∧
    ∃ i, i < a.length ∧ a.getD i 0 < b.getD i 0

/-- A walk from `s`: a sequence of edges, each present in the adjacency list of the node the
previous one reaches.  The second index is the node the walk ends in. -/
inductive Walk (g : Graph α) (s : Nat) : List (Edge α) → Nat → Prop
  | nil : Walk g s [] s
  | snoc {p : List (Edge α)} {u : Nat} {e : Edge α} :
      Walk g s p u → e ∈ g.adj u → Walk g s (p ++ [e]) e.to_

/-- The accumulated cost of a sequence of edges: objective `i` is the sum of the `i`-th weight
components, for `i < m`. -/
def pathCost (m : Nat) (p : List (Edge α)) : Cost α :=
  (List.range m).map (fun i => (p.map (fun e => e.weights.getD i 0)).sum)

/-- Well-formed graph: one adjacency list per node, edge targets in `[0, n)`, weight vectors of
length `n_objectives`. -/
def WellFormed (g : Graph α) : Prop :=
  g.adjList.length = g.n_nodes ∧
    ∀ es ∈ g.adjList, ∀ e ∈ es, e.to_ < g.n_nodes ∧ e.weights.length = g.n_objectives

/-- All weight components are non-negative. -/
def NonNegWeights (g : Graph α) : Prop :=
  ∀ es ∈ g.adjList, ∀ e ∈ es, ∀ w ∈ e.weights, (0 : α) ≤ w

/-- A front is an antichain without duplicates: entries at distinct positions neither dominate
one another nor are equal. -/
def Antichain (pf : List (Cost α)) : Prop :=
  ∀ i j, i < pf.length → j < pf.length → i ≠ j →
    ¬ Dominates (pf.getD i []) (pf.getD j []) ∧ pf.getD i [] ≠ pf.getD j []

end Vocabulary

/-! ## Invariants and measures of the main loop -/

section LoopVocabulary

variable {α : Type} [LinearOrderedAddCommGroup α]

/-- Every label of the state has length `m`. -/
def LenInv (m : Nat) (st : Fronts α × Frontier α) : Prop :=
  (∀ v, ∀ x ∈ frontAt st.1 v, x.length = m) ∧ ∀ q ∈ st.2, q.1.length = m

/-- Some label of `front(v)` is component-wise below `c`. -/
def Cov (fr : Fronts α) (v : Nat) (c : Cost α) : Prop := ∃ y ∈ frontAt fr v, VLe y c

/-- The vector `x` is the accumulated cost of a walk from `s` to `v`. -/
def Reach (g : Graph α) (s v : Nat) (x : Cost α) : Prop :=
  ∃ p, Walk g s p v ∧ pathCost g.n_objectives p = x

/-- No entry of the front is component-wise below another entry at a different position. -/
def Incomparable (pf : List (Cost α)) : Prop :=
  pf.Pairwise (fun a b => ¬ VLe a b ∧ ¬ VLe b a)

/-- The invariant of the main loop that needs no hypothesis on the graph. -/
structure Inv (g : Graph α) (s : Nat) (st : Fronts α × Frontier α) : Prop where
  size : st.1.length = g.n_nodes
  len : LenInv g.n_objectives st
  sound_fr : ∀ v x, x ∈ frontAt st.1 v → Reach g s v x
  sound_pq : ∀ q ∈ st.2, Reach g s q.2 q.1
  anti : ∀ v, Incomparable (frontAt st.1 v)

/-- The state after `k` iterations of the main loop (the loop has stopped when it is `none`). -/
def iterate (g : Graph α) (st : Fronts α × Frontier α) : Nat → Option (Fronts α × Frontier α)
  | 0 => some st
  | k + 1 =>
    match iterate g st k with
    | none => none
    | some st1 => step g st1

/-- Every candidate obtained from label `x` of node `u` is covered at its target. -/
def ClosedAt (g : Graph α) (fr : Fronts α) (u : Nat) (x : Cost α) : Prop :=
  ∀ e ∈ g.adj u, Cov fr e.to_ (newCost g.n_objectives x e.weights)

/-- The zero vector is covered at the source, and every label in a front is in the frontier
or has all its candidates covered. -/
structure Closed (g : Graph α) (s : Nat) (st : Fronts α × Frontier α) : Prop where
  src : Cov st.1 s (zeros g.n_objectives)
  closed : ∀ u x, x ∈ frontAt st.1 u → (x, u) ∈ st.2 ∨ ClosedAt g st.1 u x

/-- The same while the entry `(cost, u)` is being expanded. -/
def PartClosed (g : Graph α) (cost : Cost α) (u : Nat) (st : Fronts α × Frontier α) : Prop :=
  ∀ v x, x ∈ frontAt st.1 v → (x, v) ∈ st.2 ∨ (x = cost ∧ v = u) ∨ ClosedAt g st.1 v x

/-- The nodes a sequence of edges visits when started at `s`. -/
def nodesOf (s : Nat) (p : List (Edge α)) : List Nat := s :: p.map (fun e => e.to_)

/-- A walk from `s` that enters no node twice and whose every extension step was covered at
the node it entered. -/
inductive GoodWalk (g : Graph α) (s : Nat) (fr : Fronts α) : List (Edge α) → Nat → Prop
  | nil : GoodWalk g s fr [] s
  | snoc {p : List (Edge α)} {u : Nat} {e : Edge α} :
      GoodWalk g s fr p u → e ∈ g.adj u → e.to_ ∉ nodesOf s p →
      Cov fr e.to_ (pathCost g.n_objectives (p ++ [e])) → GoodWalk g s fr (p ++ [e]) e.to_

/-- The labels of all walks from `s` with at most `k` edges, with their end nodes. -/
def labelsUpTo (g : Graph α) (s : Nat) : Nat → List (Nat × Cost α)
  | 0 => [(s, zeros g.n_objectives)]
  | k + 1 =>
    labelsUpTo g s k ++
      (labelsUpTo g s k).flatMap
        (fun q => (g.adj q.1).map (fun e => (e.to_, newCost g.n_objectives q.2 e.weights)))

/-- How many of the listed labels are not yet covered at their node. -/
def uncovered (L : List (Nat × Cost α)) (fr : Fronts α) : Nat :=
  L.countP (fun q => !isDominatedIn (frontAt fr q.1) q.2)

/-- The quantity that every iteration of the main loop lowers. -/
def loopMeasure (g : Graph α) (s : Nat) (st : Fronts α × Frontier α) : Nat :=
  uncovered (labelsUpTo g s (g.n_nodes - 1)) st.1 + st.2.length

/-- A bound on the number of iterations of the main loop from source `s`. -/
def fuelBound (g : Graph α) (s : Nat) : Nat := (labelsUpTo g s (g.n_nodes - 1)).length + 2

/-- Every frontier entry is the label of a good walk. -/
def TermInv (g : Graph α) (s : Nat) (st : Fronts α × Frontier α) : Prop :=
  ∀ q ∈ st.2, ∃ p, GoodWalk g s st.1 p q.2 ∧ pathCost g.n_objectives p = q.1

/-- What holds of the state while the entry of the good walk `p` to `u` is being expanded. -/
structure TermState (g : Graph α) (s : Nat) (p : List (Edge α)) (u : Nat) (M : Nat)
    (st : Fronts α × Frontier α) : Prop where
  inv : Inv g s st
  src : Cov st.1 s (zeros g.n_objectives)
  good : GoodWalk g s st.1 p u
  term : TermInv g s st
  bound : loopMeasure g s st ≤ M

end LoopVocabulary

section ScenarioPlus

/-- The scenario graph after `addEdge(0, 3, [10,10])`. -/
def diamondPlus : Graph Int := diamond.addEdge 0 3 [10, 10]

end ScenarioPlus

/-! ## Vocabulary for graph mutation, the traced loop and the incremental loop -/

section MutationVocabulary

variable {α : Type}

/-- The largest value of the C++ type `int`. -/
def INT_MAX : Int := 2147483647

/-- The least value of the C++ type `int`. -/
def INT_MIN : Int := -2147483648

/-- The number of edges stored across the adjacency lists: the sum of the lengths of
`neighbors(v)` over the nodes `v < n_nodes`. -/
def Graph.storedEdges (g : Graph α) : Nat :=
  ((List.range g.n_nodes).map (fun v => (g.neighbors v).length)).sum

/-- How many edges of an adjacency list have target `dst`. -/
def edgesTo (es : List (Edge α)) (dst : Nat) : Nat :=
  es.countP (fun e => decide (e.to_ = dst))

/-- A call the driver builds a graph with: `setNumNodes` or one of the three mutations. -/
inductive BuildCall (α : Type) where
  | setNumNodes (n : Nat)
  | mutate (m : Mutation α)

/-- The graph after one build call. -/
def Graph.applyBuild (g : Graph α) : BuildCall α → Graph α
  | .setNumNodes n => g.setNumNodes n
  | .mutate m => g.applyMutation m

/-- The graph after a sequence of build calls, first call first. -/
def Graph.applyBuilds (g : Graph α) (cs : List (BuildCall α)) : Graph α :=
  cs.foldl Graph.applyBuild g

end MutationVocabulary

section TraceVocabulary

variable {α : Type} [LinearOrderedAddCommGroup α]

/-- The entries one relaxation pushes onto the frontier: the candidate with its node when
the candidate is accepted, nothing when it is discarded. -/
def pushedBy (m : Nat) (cost : Cost α) (st : Fronts α × Frontier α) (edge : Edge α) :
    Frontier α :=
  if isDominatedIn (frontAt st.1 edge.to_) (newCost m cost edge.weights) then []
  else [(newCost m cost edge.weights, edge.to_)]

/-- One relaxation, with the record of every entry pushed so far (newest first). -/
def relaxTraced (m : Nat) (cost : Cost α) (t : (Fronts α × Frontier α) × Frontier α)
    (edge : Edge α) : (Fronts α × Frontier α) × Frontier α :=
  (relax m cost t.1 edge, pushedBy m cost t.1 edge ++ t.2)

/-- One iteration of the main loop, with the record of pushes. -/
def stepTraced (g : Graph α) (t : (Fronts α × Frontier α) × Frontier α) :
    Option ((Fronts α × Frontier α) × Frontier α) :=
  match pqPop t.1.2 with
  | none => none
  | some ((cost, u), rest) =>
    some ((g.adj u).foldl (relaxTraced g.n_objectives cost) ((t.1.1, rest), t.2))

/-- The state and the record of pushes after `k` iterations of the main loop. -/
def iterateTraced (g : Graph α) (t : (Fronts α × Frontier α) × Frontier α) :
    Nat → Option ((Fronts α × Frontier α) × Frontier α)
  | 0 => some t
  | k + 1 =>
    match iterateTraced g t k with
    | none => none
    | some t1 => stepTraced g t1

/-- The state before the main loop, with the one push made before it. -/
def initTraced (g : Graph α) (source : Nat) : (Fronts α × Frontier α) × Frontier α :=
  (initState g source, (initState g source).2)

/-- What holds of the record of pushes: every recorded entry has `n_objectives` components and
is covered at its node, and no entry is recorded twice. -/
def TraceInv (g : Graph α) (t : (Fronts α × Frontier α) × Frontier α) : Prop :=
  t.1.1.length = g.n_nodes ∧ LenInv g.n_objectives t.1 ∧
    (∀ q ∈ t.2, q.1.length = g.n_objectives ∧ Cov t.1.1 q.2 q.1) ∧ t.2.Nodup

end TraceVocabulary

/-! ## The incremental update loop of the driver (`main.cpp`, lines 84-105) -/

section IncrementalLoop

variable {α : Type} [LinearOrderedAddCommGroup α]

/-- The public members `paretoPaths` (a map from node to its paths, an absent key being the
empty vector that `operator[]` creates) and `isUpdated` of `class Graph`. -/
structure Incremental (α : Type) where
  paretoPaths : Nat → List (Path α)
  isUpdated : List Bool

/-- The body of `for (const auto& edge : g.neighbors(i))` in the driver, for one edge: the
candidate `newPath` has `objectives = new_obj` and `nodes = {i, edge.to}`. -/
def propagateEdge (new_obj : List α) (i : Nat) (st : Incremental α) (edge : Edge α) :
    Incremental α :=
  let newPath : Path α := { objectives := new_obj, nodes := [i, edge.to_] }
  if isNonDominated newPath (st.paretoPaths edge.to_) then
    { paretoPaths := fun v =>
        if v = edge.to_ then st.paretoPaths v ++ [newPath] else st.paretoPaths v
      isUpdated := st.isUpdated.set edge.to_ true }
  else st

/-- The body of `for (int i = 0; i < max_nodes; ++i)`: node `i` is expanded when
`isUpdated[i]` holds. -/
def propagateNode (g : Graph α) (new_obj : List α) (st : Incremental α) (i : Nat) :
    Incremental α :=
  if st.isUpdated.getD i false then (g.neighbors i).foldl (propagateEdge new_obj i) st else st

/-- The loop `for (int i = 0; i < max_nodes; ++i)`, nodes taken in sequential order. -/
def incrementalLoop (g : Graph α) (new_obj : List α) (max_nodes : Nat) (st : Incremental α) :
    Incremental α :=
  (List.range max_nodes).foldl (propagateNode g new_obj) st

/-- The dirty flags after `isUpdated.assign(max_nodes, false); isUpdated[update_from] = true;`. -/
def markUpdated (max_nodes update_from : Nat) : List Bool :=
  (List.replicate max_nodes false).set update_from true

/-- The fronts of `st1` are those of `st` with paths appended, each appended path having the
objectives `new_obj` and the nodes `[u, v]` of an edge `u -> v` of the graph. -/
def Extends (g : Graph α) (new_obj : List α) (st st1 : Incremental α) : Prop :=
  ∀ v, ∃ t, st1.paretoPaths v = st.paretoPaths v ++ t ∧
    ∀ p ∈ t, p.objectives = new_obj ∧ ∃ u, (∃ e ∈ g.neighbors u, e.to_ = v) ∧ p.nodes = [u, v]

end IncrementalLoop

section IncrementalScenario

/-- A two-node graph with the single edge `0->1 [2,3]`. -/
def twoNodes : Graph Int :=
  ({ adjList := [[], []], n_nodes := 2, n_edges := 0, n_objectives := 2,
     edgeIndex := fun _ _ => none } : Graph Int).addEdge 0 1 [2, 3]

/-- Node 0 holds the label `[5,5]`, node 1 holds none; node 0 is dirty. -/
def twoNodesState : Incremental Int :=
  { paretoPaths := fun v => if v = 0 then [{ objectives := [5, 5], nodes := [0] }] else []
    isUpdated := markUpdated 2 0 }

/-- The default-constructed graph sized for two nodes, with the edge `0->1 [1]`. -/
def oneEdge : Graph Int := ((Graph.default : Graph Int).setNumNodes 2).addEdge 0 1 [1]

end IncrementalScenario

/-! ## Vocabulary for labels under an arbitrary addition -/

section AdditionVocabulary

variable {α : Type} [LinearOrder α] [Add α] [Zero α]

/-- The cost accumulated along a sequence of edges with the addition of `α`: objective `i`
starts at zero and has the `i`-th weight component of each edge added to it in turn, first
edge first.  No law is assumed of the addition, so it may round as the addition of doubles
does; in an ordered group this is the exact sum `pathCost`. -/
def sumAlong (m : Nat) (p : List (Edge α)) : Cost α :=
  (List.range m).map
    (fun i => (p.map (fun e => e.weights.getD i 0)).foldl (fun acc w => acc + w) 0)

/-- Every label in a front or in the frontier is the cost accumulated along a walk from the
source to its node. -/
def Accumulated (g : Graph α) (s : Nat) (st : Fronts α × Frontier α) : Prop :=
  (∀ v, ∀ x ∈ frontAt st.1 v, ∃ p, Walk g s p v ∧ sumAlong g.n_objectives p = x) ∧
    ∀ q ∈ st.2, ∃ p, Walk g s p q.2 ∧ sumAlong g.n_objectives p = q.1

end AdditionVocabulary

/-! ## Order lemmas -/

section OrderLemmas

variable {α : Type} [LinearOrderedAddCommGroup α]

theorem VLe.length_eq {a b : Cost α} (h : VLe a b) : a.length = b.length :=
  List.Forall₂.length_eq h

theorem VLe.refl (a : Cost α) : VLe a a := by
  induction a with
  | nil => exact List.Forall₂.nil
  | cons x xs ih => exact List.Forall₂.cons le_rfl ih

theorem VLe.trans {a b c : Cost α} (h1 : VLe a b) (h2 : VLe b c) : VLe a c := by
  induction h1 generalizing c with
  | nil => cases h2; exact List.Forall₂.nil
  | cons hxy _ ih =>
    cases h2 with
    | cons hyz ht => exact List.Forall₂.cons (le_trans hxy hyz) (ih ht)

theorem VLe.antisymm {a b : Cost α} (h1 : VLe a b) (h2 : VLe b a) : a = b := by
  induction h1 with
  | nil => rfl
  | cons hxy _ ih =>
    cases h2 with
    | cons hyx ht => rw [le_antisymm hxy hyx, ih ht]

theorem dominatesLoop_iff (a b : Cost α) (sb : Bool) (hlen : a.length = b.length) :
    dominatesLoop a b sb = true ↔ VLe a b ∧ (sb = true ∨ a ≠ b) := by
  induction a generalizing b sb with
  | nil =>
    cases b with
    | nil => simp [dominatesLoop, VLe]
    | cons y ys => simp at hlen
  | cons x xs ih =>
    cases b with
    | nil => simp at hlen
    | cons y ys =>
      have hl : xs.length = ys.length := by simpa using hlen
      unfold dominatesLoop
      by_cases hyx : y < x
      · simp only [hyx, if_true]
        constructor
        · intro h; cases h
        · rintro ⟨h, _⟩
          cases h with
          | cons hxy _ => exact absurd hxy (not_le.mpr hyx)
      · simp only [hyx, if_false]
        rw [ih ys _ hl]
        have hxy : x ≤ y := not_lt.mp hyx
        by_cases hlt : x < y
        · simp only [hlt, if_true, true_or, and_true]
          constructor
          · intro h
            exact ⟨List.Forall₂.cons hxy h, Or.inr (by intro he; injection he with h1 _; exact (ne_of_lt hlt) h1)⟩
          · rintro ⟨h, _⟩
            cases h with
            | cons _ ht => exact ht
        · have hEq : x = y := le_antisymm hxy (not_lt.mp hlt)
          subst hEq
          simp only [lt_irrefl, if_false]
          constructor
          · rintro ⟨h, hs⟩
            refine ⟨List.Forall₂.cons le_rfl h, ?_⟩
            rcases hs with hs | hs
            · exact Or.inl hs
            · exact Or.inr (by intro he; injection he with _ h2; exact hs h2)
          · rintro ⟨h, hs⟩
            cases h with
            | cons _ ht =>
              refine ⟨ht, ?_⟩
              rcases hs with hs | hs
              · exact Or.inl hs
              · exact Or.inr (by intro he; exact hs (by rw [he]))

theorem dominates_iff {a b : Cost α} (hlen : a.length = b.length) :
    dominates a b = true ↔ VLe a b ∧ a ≠ b := by
  unfold dominates
  rw [dominatesLoop_iff a b false hlen]
  simp

theorem dominates_or_eq_iff {a b : Cost α} (hlen : a.length = b.length) :
    (dominates a b || decide (a = b)) = true ↔ VLe a b := by
  rw [Bool.or_eq_true, dominates_iff hlen, decide_eq_true_iff]
  constructor
  · rintro (⟨h, _⟩ | h)
    · exact h
    · rw [h]; exact VLe.refl b
  · intro h
    by_cases he : a = b
    · exact Or.inr he
    · exact Or.inl ⟨h, he⟩

theorem VLe_iff_getD (a b : Cost α) :
    VLe a b ↔ a.length = b.length ∧ ∀ i, i < a.length → a.getD i 0 ≤ b.getD i 0 := by
  induction a generalizing b with
  | nil =>
    cases b with
    | nil => simp [VLe]
    | cons y ys => simp [VLe]
  | cons x xs ih =>
    cases b with
    | nil => simp [VLe]
    | cons y ys =>
      have h0 : VLe (x :: xs) (y :: ys) ↔ x ≤ y ∧ VLe xs ys := by
        unfold VLe; exact List.forall₂_cons
      rw [h0, ih ys]
      constructor
      · rintro ⟨hxy, hl, hi⟩
        refine ⟨by simp [hl], ?_⟩
        intro i hlt
        cases i with
        | zero => simpa using hxy
        | succ k =>
          have hk : k < xs.length := by simpa using hlt
          simpa using hi k hk
      · rintro ⟨hl, hi⟩
        refine ⟨by simpa using hi 0 (by simp), by simpa using hl, ?_⟩
        intro i hlt
        simpa using hi (i + 1) (by simpa using hlt)

theorem VLe.exists_lt {a b : Cost α} (h : VLe a b) (hne : a ≠ b) :
    ∃ i, i < a.length ∧ a.getD i 0 < b.getD i 0 := by
  induction h with
  | nil => exact absurd rfl hne
  | @cons x y xs ys hxy _ ih =>
    by_cases hEq : x = y
    · subst hEq
      have hne2 : xs ≠ ys := by intro he; exact hne (by rw [he])
      obtain ⟨i, hi, hlt⟩ := ih hne2
      exact ⟨i + 1, by simpa using hi, by simpa using hlt⟩
    · exact ⟨0, by simp, by simpa using lt_of_le_of_ne hxy hEq⟩

theorem Dominates_iff (a b : Cost α) : Dominates a b ↔ VLe a b ∧ a ≠ b := by
  unfold Dominates
  rw [VLe_iff_getD]
  constructor
  · rintro ⟨hl, hle, i, hi, hlt⟩
    refine ⟨⟨hl, hle⟩, ?_⟩
    intro he
    rw [he] at hlt
    exact lt_irrefl _ hlt
  · rintro ⟨⟨hl, hle⟩, hne⟩
    exact ⟨hl, hle, VLe.exists_lt ((VLe_iff_getD a b).mpr ⟨hl, hle⟩) hne⟩

theorem dominates_eq_true_iff {a b : Cost α} (hlen : a.length = b.length) :
    dominates a b = true ↔ Dominates a b := by
  rw [dominates_iff hlen, Dominates_iff]

/-- The scan of a front finds a label below the candidate exactly when one exists. -/
theorem isDominatedIn_iff {pf : List (Cost α)} {c : Cost α}
    (hlen : ∀ y ∈ pf, y.length = c.length) :
    isDominatedIn pf c = true ↔ ∃ y ∈ pf, VLe y c := by
  unfold isDominatedIn
  rw [List.any_eq_true]
  constructor
  · rintro ⟨y, hy, h⟩
    exact ⟨y, hy, (dominates_or_eq_iff (hlen y hy)).mp h⟩
  · rintro ⟨y, hy, h⟩
    exact ⟨y, hy, (dominates_or_eq_iff (hlen y hy)).mpr h⟩

end OrderLemmas

/-! ## Costs and walks -/

section CostLemmas

variable {α : Type} [LinearOrderedAddCommGroup α]

theorem length_newCost (m : Nat) (c w : Cost α) : (newCost m c w).length = m := by
  simp [newCost]

theorem length_pathCost (m : Nat) (p : List (Edge α)) : (pathCost m p).length = m := by
  simp [pathCost]

theorem length_zeros (m : Nat) : (zeros m : Cost α).length = m := by
  simp [zeros]

theorem pathCost_nil (m : Nat) : pathCost m ([] : List (Edge α)) = zeros m := by
  unfold pathCost zeros
  rw [List.eq_replicate_iff]
  simp

theorem getD_map_range (m : Nat) (f : Nat → α) (i : Nat) (hi : i < m) :
    ((List.range m).map f).getD i 0 = f i := by
  simp [List.getD, hi]

/-- Extending a walk by an edge adds the edge weights, as the inner loop does. -/
theorem pathCost_snoc (m : Nat) (p : List (Edge α)) (e : Edge α) :
    pathCost m (p ++ [e]) = newCost m (pathCost m p) e.weights := by
  unfold newCost
  apply List.ext_getElem
  · simp [pathCost]
  · intro i h1 h2
    have hi : i < m := by simpa [pathCost] using h1
    simp [pathCost, List.getElem?_range hi]

/-- In exact arithmetic the cost accumulated edge by edge is the component-wise sum. -/
theorem sumAlong_eq_pathCost (m : Nat) (p : List (Edge α)) : sumAlong m p = pathCost m p := by
  unfold sumAlong pathCost
  apply List.map_congr_left
  intro i _
  exact (List.sum_eq_foldl).symm

theorem VLe_map_range (m : Nat) (f h : Nat → α) (hle : ∀ i, i < m → f i ≤ h i) :
    VLe ((List.range m).map f) ((List.range m).map h) := by
  rw [VLe_iff_getD]
  refine ⟨by simp, ?_⟩
  intro i hi
  have hi2 : i < m := by simpa using hi
  rw [getD_map_range m f i hi2, getD_map_range m h i hi2]
  exact hle i hi2

theorem getD_nonneg (w : List α) (hw : ∀ x ∈ w, (0 : α) ≤ x) (i : Nat) : 0 ≤ w.getD i 0 := by
  by_cases hi : i < w.length
  · rw [List.getD_eq_getElem _ _ hi]
    exact hw _ (List.getElem_mem hi)
  · rw [List.getD_eq_default _ _ (not_lt.mp hi)]

/-- With non-negative weights a step never lowers any component of the cost. -/
theorem VLe_newCost (m : Nat) (c w : Cost α) (hc : c.length = m) (hw : ∀ x ∈ w, (0 : α) ≤ x) :
    VLe c (newCost m c w) := by
  rw [VLe_iff_getD]
  refine ⟨by simp [newCost, hc], ?_⟩
  intro i hi
  have hi2 : i < m := by rw [hc] at hi; exact hi
  unfold newCost
  rw [getD_map_range m _ i hi2]
  exact le_add_of_nonneg_right (getD_nonneg w hw i)

end CostLemmas

/-! ## One relaxation -/

section RelaxLemmas

variable {α : Type} [LinearOrderedAddCommGroup α]

theorem frontAt_set (fr : Fronts α) (v w : Nat) (x : List (Cost α)) :
    frontAt (fr.set v x) w = if v = w ∧ v < fr.length then x else frontAt fr w := by
  unfold frontAt
  rw [List.getD_eq_getElem?_getD, List.getD_eq_getElem?_getD, List.getElem?_set]
  by_cases h : v = w
  · subst h
    by_cases hl : v < fr.length
    · simp [hl]
    · simp [hl, List.getElem?_eq_none (not_lt.mp hl)]
  · simp [h]

theorem relax_rejected (m : Nat) (cost : Cost α) (st : Fronts α × Frontier α) (e : Edge α)
    (h : isDominatedIn (frontAt st.1 e.to_) (newCost m cost e.weights) = true) :
    relax m cost st e = st := by
  simp [relax, h]

theorem relax_accepted (m : Nat) (cost : Cost α) (st : Fronts α × Frontier α) (e : Edge α)
    (h : isDominatedIn (frontAt st.1 e.to_) (newCost m cost e.weights) = false) :
    relax m cost st e =
      (st.1.set e.to_ ((frontAt st.1 e.to_).filter
          (fun p => !dominates (newCost m cost e.weights) p) ++ [newCost m cost e.weights]),
       (newCost m cost e.weights, e.to_) :: st.2) := by
  simp [relax, h, pqPush]

theorem relax_length (m : Nat) (cost : Cost α) (st : Fronts α × Frontier α) (e : Edge α) :
    (relax m cost st e).1.length = st.1.length := by
  cases h : isDominatedIn (frontAt st.1 e.to_) (newCost m cost e.weights)
  · rw [relax_accepted m cost st e h]; simp
  · rw [relax_rejected m cost st e h]

/-- A label in a front after a relaxation was there before, or is the accepted candidate. -/
theorem relax_mem_front (m : Nat) (cost : Cost α) (st : Fronts α × Frontier α) (e : Edge α)
    (w : Nat) (x : Cost α) (hx : x ∈ frontAt (relax m cost st e).1 w) :
    x ∈ frontAt st.1 w ∨
      (x = newCost m cost e.weights ∧ w = e.to_ ∧
        isDominatedIn (frontAt st.1 e.to_) (newCost m cost e.weights) = false) := by
  cases h : isDominatedIn (frontAt st.1 e.to_) (newCost m cost e.weights)
  · rw [relax_accepted m cost st e h, frontAt_set] at hx
    by_cases hc : e.to_ = w ∧ e.to_ < st.1.length
    · rw [if_pos hc] at hx
      rcases List.mem_append.mp hx with h1 | h1
      · left; rw [← hc.1]; exact (List.mem_filter.mp h1).1
      · right; exact ⟨by simpa using h1, hc.1.symm, rfl⟩
    · rw [if_neg hc] at hx; exact Or.inl hx
  · rw [relax_rejected m cost st e h] at hx; exact Or.inl hx

/-- An entry of the frontier after a relaxation was there before, or is the accepted
candidate. -/
theorem relax_mem_pq (m : Nat) (cost : Cost α) (st : Fronts α × Frontier α) (e : Edge α)
    (q : Cost α × Nat) (hq : q ∈ (relax m cost st e).2) :
    q ∈ st.2 ∨
      (q = (newCost m cost e.weights, e.to_) ∧
        isDominatedIn (frontAt st.1 e.to_) (newCost m cost e.weights) = false) := by
  cases h : isDominatedIn (frontAt st.1 e.to_) (newCost m cost e.weights)
  · rw [relax_accepted m cost st e h] at hq
    rcases List.mem_cons.mp hq with h1 | h1
    · exact Or.inr ⟨h1, rfl⟩
    · exact Or.inl h1
  · rw [relax_rejected m cost st e h] at hq; exact Or.inl hq

theorem relax_pq_mono (m : Nat) (cost : Cost α) (st : Fronts α × Frontier α) (e : Edge α)
    (q : Cost α × Nat) (hq : q ∈ st.2) : q ∈ (relax m cost st e).2 := by
  cases h : isDominatedIn (frontAt st.1 e.to_) (newCost m cost e.weights)
  · rw [relax_accepted m cost st e h]; exact List.mem_cons_of_mem _ hq
  · rw [relax_rejected m cost st e h]; exact hq

theorem relax_lenInv (m : Nat) (cost : Cost α) (st : Fronts α × Frontier α) (e : Edge α)
    (h : LenInv m st) : LenInv m (relax m cost st e) := by
  constructor
  · intro v x hx
    rcases relax_mem_front m cost st e v x hx with h1 | ⟨h1, _, _⟩
    · exact h.1 v x h1
    · rw [h1]; exact length_newCost m cost e.weights
  · intro q hq
    rcases relax_mem_pq m cost st e q hq with h1 | ⟨h1, _⟩
    · exact h.2 q h1
    · rw [h1]; exact length_newCost m cost e.weights

/-- A label kept by a relaxation, or else pushed out by the accepted candidate below it. -/
theorem relax_front_keep (m : Nat) (cost : Cost α) (st : Fronts α × Frontier α) (e : Edge α)
    (hlen : LenInv m st) (w : Nat) (x : Cost α) (hx : x ∈ frontAt st.1 w) :
    x ∈ frontAt (relax m cost st e).1 w ∨
      (w = e.to_ ∧ VLe (newCost m cost e.weights) x ∧
        newCost m cost e.weights ∈ frontAt (relax m cost st e).1 w) := by
  cases h : isDominatedIn (frontAt st.1 e.to_) (newCost m cost e.weights)
  · rw [relax_accepted m cost st e h, frontAt_set]
    by_cases hc : e.to_ = w ∧ e.to_ < st.1.length
    · rw [if_pos hc]
      have hw : w = e.to_ := hc.1.symm
      by_cases hd : dominates (newCost m cost e.weights) x = true
      · right
        have hl : (newCost m cost e.weights).length = x.length := by
          rw [length_newCost, hlen.1 w x hx]
        exact ⟨hw, ((dominates_iff hl).mp hd).1, by simp⟩
      · left
        apply List.mem_append_left
        rw [List.mem_filter]
        refine ⟨by rw [← hw]; exact hx, by simpa using hd⟩
    · rw [if_neg hc]; exact Or.inl hx
  · rw [relax_rejected m cost st e h]; exact Or.inl hx

/-- Coverage is never lost by a relaxation. -/
theorem relax_cov_mono (m : Nat) (cost : Cost α) (st : Fronts α × Frontier α) (e : Edge α)
    (hlen : LenInv m st) (w : Nat) (c : Cost α) (hc : Cov st.1 w c) :
    Cov (relax m cost st e).1 w c := by
  obtain ⟨y, hy, hle⟩ := hc
  rcases relax_front_keep m cost st e hlen w y hy with h1 | ⟨_, h2, h3⟩
  · exact ⟨y, h1, hle⟩
  · exact ⟨_, h3, VLe.trans h2 hle⟩

/-- After a relaxation the candidate is covered at the edge target. -/
theorem relax_cov_new (m : Nat) (cost : Cost α) (st : Fronts α × Frontier α) (e : Edge α)
    (hlen : LenInv m st) (hv : e.to_ < st.1.length) :
    Cov (relax m cost st e).1 e.to_ (newCost m cost e.weights) := by
  cases h : isDominatedIn (frontAt st.1 e.to_) (newCost m cost e.weights)
  · rw [relax_accepted m cost st e h]
    refine ⟨newCost m cost e.weights, ?_, VLe.refl _⟩
    rw [frontAt_set, if_pos ⟨rfl, hv⟩]
    simp
  · rw [relax_rejected m cost st e h]
    have hl : ∀ y ∈ frontAt st.1 e.to_, y.length = (newCost m cost e.weights).length := by
      intro y hy; rw [length_newCost, hlen.1 _ y hy]
    exact (isDominatedIn_iff hl).mp h

/-- Folding a step function preserves what each step preserves. -/
theorem foldl_preserves {σ β : Type} (P : σ → Prop) (f : σ → β → σ) (l : List β)
    (h : ∀ st, ∀ e ∈ l, P st → P (f st e)) (st : σ) (h0 : P st) : P (l.foldl f st) := by
  induction l generalizing st with
  | nil => exact h0
  | cons e es ih =>
    rw [List.foldl_cons]
    exact ih (fun st1 e1 he1 hp => h st1 e1 (List.mem_cons_of_mem _ he1) hp) _
      (h st e (List.mem_cons_self _ _) h0)

theorem foldl_relax_length (m : Nat) (cost : Cost α) (l : List (Edge α))
    (st : Fronts α × Frontier α) : (l.foldl (relax m cost) st).1.length = st.1.length := by
  induction l generalizing st with
  | nil => rfl
  | cons e es ih => rw [List.foldl_cons, ih, relax_length]

theorem foldl_relax_lenInv (m : Nat) (cost : Cost α) (l : List (Edge α))
    (st : Fronts α × Frontier α) (h : LenInv m st) : LenInv m (l.foldl (relax m cost) st) :=
  foldl_preserves (LenInv m) (relax m cost) l (fun st1 e _ h1 => relax_lenInv m cost st1 e h1) st h

theorem foldl_relax_cov_mono (m : Nat) (cost : Cost α) (l : List (Edge α))
    (st : Fronts α × Frontier α) (hlen : LenInv m st) (w : Nat) (c : Cost α)
    (hc : Cov st.1 w c) : Cov (l.foldl (relax m cost) st).1 w c :=
  (foldl_preserves (fun st1 => LenInv m st1 ∧ Cov st1.1 w c) (relax m cost) l
    (fun st1 e _ h1 => ⟨relax_lenInv m cost st1 e h1.1, relax_cov_mono m cost st1 e h1.1 w c h1.2⟩)
    st ⟨hlen, hc⟩).2

/-- After the inner loop every candidate of the expanded label is covered at its target. -/
theorem foldl_relax_cov_all (m : Nat) (cost : Cost α) (l : List (Edge α))
    (st : Fronts α × Frontier α) (hlen : LenInv m st) (hv : ∀ e ∈ l, e.to_ < st.1.length) :
    ∀ e ∈ l, Cov (l.foldl (relax m cost) st).1 e.to_ (newCost m cost e.weights) := by
  induction l generalizing st with
  | nil => intro e he; cases he
  | cons e0 es ih =>
    intro e he
    rw [List.foldl_cons]
    rcases List.mem_cons.mp he with h1 | h1
    · subst h1
      exact foldl_relax_cov_mono m cost es _ (relax_lenInv m cost st e hlen) _ _
        (relax_cov_new m cost st e hlen (hv e (List.mem_cons_self _ _)))
    · exact ih _ (relax_lenInv m cost st e0 hlen)
        (fun e1 he1 => by rw [relax_length]; exact hv e1 (List.mem_cons_of_mem _ he1)) e h1

end RelaxLemmas

/-! ## The frontier -/

section FrontierLemmas

variable {α : Type} [LinearOrderedAddCommGroup α]

theorem minEntry_mem (x : Cost α × Nat) (xs : Frontier α) : minEntry x xs ∈ x :: xs := by
  induction xs generalizing x with
  | nil => simp [minEntry]
  | cons y ys ih =>
    unfold minEntry
    have h := ih (if entryLt y x then y else x)
    rcases List.mem_cons.mp h with h1 | h1
    · rw [h1]
      by_cases hc : entryLt y x = true
      · simp [hc]
      · simp [hc]
    · exact List.mem_cons_of_mem _ (List.mem_cons_of_mem _ h1)

theorem pqPop_none (pq : Frontier α) (h : pqPop pq = none) : pq = [] := by
  cases pq with
  | nil => rfl
  | cons x xs => simp [pqPop] at h

theorem pqPop_nil : pqPop ([] : Frontier α) = none := rfl

/-- The popped entry was in the frontier, and the rest is the frontier without one copy. -/
theorem pqPop_some (pq : Frontier α) (x : Cost α × Nat) (rest : Frontier α)
    (h : pqPop pq = some (x, rest)) :
    x ∈ pq ∧ rest.length + 1 = pq.length ∧ (∀ q ∈ rest, q ∈ pq) ∧
      ∀ q ∈ pq, q = x ∨ q ∈ rest := by
  cases pq with
  | nil => simp [pqPop] at h
  | cons y ys =>
    simp only [pqPop, Option.some.injEq, Prod.mk.injEq] at h
    obtain ⟨h1, h2⟩ := h
    have hmem : x ∈ y :: ys := by rw [← h1]; exact minEntry_mem y ys
    rw [h1] at h2
    refine ⟨hmem, ?_, ?_, ?_⟩
    · rw [← h2, List.length_erase_of_mem hmem]
      simp
    · intro q hq
      rw [← h2] at hq
      exact List.mem_of_mem_erase hq
    · intro q hq
      by_cases hqx : q = x
      · exact Or.inl hqx
      · right
        rw [← h2]
        exact (List.mem_erase_of_ne hqx).mpr hq

end FrontierLemmas

/-! ## Invariants of the main loop: label length, soundness, antichain -/

section BasicInvariant

variable {α : Type} [LinearOrderedAddCommGroup α]

theorem Reach.step {g : Graph α} {s u : Nat} {cost : Cost α} (h : Reach g s u cost)
    {e : Edge α} (he : e ∈ g.adj u) : Reach g s e.to_ (newCost g.n_objectives cost e.weights) := by
  obtain ⟨p, hp, hc⟩ := h
  exact ⟨p ++ [e], Walk.snoc hp he, by rw [pathCost_snoc, hc]⟩

theorem frontAt_replicate (n v : Nat) : frontAt (List.replicate n ([] : List (Cost α))) v = [] := by
  unfold frontAt
  rw [List.getD_eq_getElem?_getD]
  by_cases h : v < n
  · simp [List.getElem?_replicate, h]
  · simp [List.getElem?_replicate, h]

theorem frontAt_init (g : Graph α) (s v : Nat) :
    frontAt (initState g s).1 v = if s = v ∧ s < g.n_nodes then [zeros g.n_objectives] else [] := by
  unfold initState
  simp only [Graph.numNodes]
  rw [frontAt_set, frontAt_replicate, frontAt_replicate]
  simp

theorem incomparable_insert {pf : List (Cost α)} {c : Cost α} (m : Nat) (hpf : Incomparable pf)
    (hl : ∀ y ∈ pf, y.length = m) (hc : c.length = m) (hnd : isDominatedIn pf c = false) :
    Incomparable (pf.filter (fun p => !dominates c p) ++ [c]) := by
  unfold Incomparable
  rw [List.pairwise_append]
  refine ⟨List.Pairwise.sublist (List.filter_sublist pf) hpf, List.pairwise_singleton _ _, ?_⟩
  intro a ha b hb
  have hb2 : b = c := by simpa using hb
  subst hb2
  obtain ⟨hapf, hdom⟩ := List.mem_filter.mp ha
  have hlen : ∀ y ∈ pf, y.length = b.length := fun y hy => by rw [hl y hy, hc]
  have hno : ¬ VLe a b := by
    intro hab
    have := (isDominatedIn_iff hlen).mpr ⟨a, hapf, hab⟩
    rw [hnd] at this
    cases this
  refine ⟨hno, ?_⟩
  intro hba
  have hd : dominates b a = false := by simpa using hdom
  have hne : ¬ (VLe b a ∧ b ≠ a) := by
    rw [← dominates_iff (hlen a hapf).symm, hd]; simp
  have hEq : b = a := by
    by_contra hx
    exact hne ⟨hba, hx⟩
  exact hno (by rw [hEq]; exact VLe.refl a)

theorem relax_inv (g : Graph α) (s u : Nat) (cost : Cost α) (st : Fronts α × Frontier α)
    (e : Edge α) (hr : Reach g s u cost) (he : e ∈ g.adj u) (h : Inv g s st) :
    Inv g s (relax g.n_objectives cost st e) := by
  refine ⟨by rw [relax_length]; exact h.size, relax_lenInv _ cost st e h.len, ?_, ?_, ?_⟩
  · intro v x hx
    rcases relax_mem_front _ cost st e v x hx with h1 | ⟨h1, h2, _⟩
    · exact h.sound_fr v x h1
    · rw [h1, h2]; exact hr.step he
  · intro q hq
    rcases relax_mem_pq _ cost st e q hq with h1 | ⟨h1, _⟩
    · exact h.sound_pq q h1
    · rw [h1]; exact hr.step he
  · intro v
    cases hd : isDominatedIn (frontAt st.1 e.to_) (newCost g.n_objectives cost e.weights)
    · rw [relax_accepted _ cost st e hd, frontAt_set]
      by_cases hc : e.to_ = v ∧ e.to_ < st.1.length
      · rw [if_pos hc]
        exact incomparable_insert g.n_objectives (h.anti e.to_) (h.len.1 e.to_)
          (length_newCost _ _ _) hd
      · rw [if_neg hc]; exact h.anti v
    · rw [relax_rejected _ cost st e hd]; exact h.anti v

theorem step_inv (g : Graph α) (s : Nat) (st st1 : Fronts α × Frontier α)
    (hs : step g st = some st1) (h : Inv g s st) : Inv g s st1 := by
  unfold step at hs
  cases hp : pqPop st.2 with
  | none => rw [hp] at hs; cases hs
  | some r =>
    obtain ⟨⟨cost, u⟩, rest⟩ := r
    rw [hp] at hs
    simp only [Option.some.injEq] at hs
    obtain ⟨hx, _, hrest, _⟩ := pqPop_some st.2 (cost, u) rest hp
    have hr : Reach g s u cost := h.sound_pq (cost, u) hx
    have h0 : Inv g s (st.1, rest) :=
      ⟨h.size, ⟨h.len.1, fun q hq => h.len.2 q (hrest q hq)⟩, h.sound_fr,
        fun q hq => h.sound_pq q (hrest q hq), h.anti⟩
    rw [← hs]
    exact foldl_preserves (Inv g s) (relax g.n_objectives cost) (g.adj u)
      (fun st2 e he h2 => relax_inv g s u cost st2 e hr he h2) _ h0

theorem init_inv (g : Graph α) (s : Nat) : Inv g s (initState g s) := by
  refine ⟨by simp [initState, Graph.numNodes], ⟨?_, ?_⟩, ?_, ?_, ?_⟩
  · intro v x hx
    rw [frontAt_init] at hx
    split at hx
    · rw [List.mem_singleton.mp hx]; exact length_zeros _
    · cases hx
  · intro q hq
    have : q = (zeros g.n_objectives, s) := by simpa [initState, pqPush] using hq
    rw [this]; exact length_zeros _
  · intro v x hx
    rw [frontAt_init] at hx
    split at hx
    · rename_i hc
      rw [List.mem_singleton.mp hx, ← hc.1]
      exact ⟨[], Walk.nil, pathCost_nil _⟩
    · cases hx
  · intro q hq
    have : q = (zeros g.n_objectives, s) := by simpa [initState, pqPush] using hq
    rw [this]
    exact ⟨[], Walk.nil, pathCost_nil _⟩
  · intro v
    rw [frontAt_init]
    split
    · exact List.pairwise_singleton _ _
    · exact List.Pairwise.nil

theorem iterate_inv (g : Graph α) (s : Nat) (k : Nat) (st : Fronts α × Frontier α)
    (h : iterate g (initState g s) k = some st) : Inv g s st := by
  induction k generalizing st with
  | zero =>
    simp only [iterate, Option.some.injEq] at h
    rw [← h]; exact init_inv g s
  | succ k ih =>
    simp only [iterate] at h
    cases hk : iterate g (initState g s) k with
    | none => rw [hk] at h; cases h
    | some st0 =>
      rw [hk] at h
      exact step_inv g s st0 st h (ih st0 hk)

/-- A result of the main loop is the fronts of a state satisfying what the loop preserves. -/
theorem mainLoop_preserves (g : Graph α) (P : Fronts α × Frontier α → Prop)
    (hstep : ∀ st st1, step g st = some st1 → P st → P st1) :
    ∀ (fuel : Nat) (st : Fronts α × Frontier α) (fr : Fronts α),
      mainLoop g fuel st = some fr → P st → P (fr, []) := by
  intro fuel
  induction fuel with
  | zero => intro st fr h; simp [mainLoop] at h
  | succ k ih =>
    intro st fr h hP
    simp only [mainLoop] at h
    cases hs : step g st with
    | none =>
      rw [hs] at h
      simp only [Option.some.injEq] at h
      have hpq : st.2 = [] := by
        unfold step at hs
        cases hp : pqPop st.2 with
        | none => exact pqPop_none _ hp
        | some r => rw [hp] at hs; cases hs
      have : st = (fr, []) := by rw [← h, ← hpq]
      rw [← this]; exact hP
    | some st1 =>
      rw [hs] at h
      exact ih st1 fr h (hstep st st1 hs hP)

end BasicInvariant

/-! ## Invariant of the main loop: every label is pending or expanded -/

section ClosedInvariant

variable {α : Type} [LinearOrderedAddCommGroup α]

theorem adj_mem (g : Graph α) (u : Nat) (e : Edge α) (he : e ∈ g.adj u) :
    g.adj u ∈ g.adjList := by
  unfold Graph.adj at he ⊢
  by_cases hu : u < g.adjList.length
  · rw [List.getD_eq_getElem _ _ hu]
    exact List.getElem_mem hu
  · rw [List.getD_eq_default _ _ (not_lt.mp hu)] at he
    cases he

theorem WellFormed.target_lt {g : Graph α} (hwf : WellFormed g) {u : Nat} {e : Edge α}
    (he : e ∈ g.adj u) : e.to_ < g.n_nodes :=
  (hwf.2 _ (adj_mem g u e he) e he).1

theorem relax_partClosed (g : Graph α) (cost : Cost α) (u : Nat) (st : Fronts α × Frontier α)
    (e : Edge α) (hlen : LenInv g.n_objectives st) (h : PartClosed g cost u st) :
    PartClosed g cost u (relax g.n_objectives cost st e) := by
  intro v x hx
  rcases relax_mem_front _ cost st e v x hx with h1 | ⟨h1, h2, h3⟩
  · rcases h v x h1 with h4 | h4 | h4
    · exact Or.inl (relax_pq_mono _ cost st e _ h4)
    · exact Or.inr (Or.inl h4)
    · exact Or.inr (Or.inr (fun e1 he1 => relax_cov_mono _ cost st e hlen _ _ (h4 e1 he1)))
  · left
    rw [relax_accepted _ cost st e h3, h1, h2]
    exact List.mem_cons_self _ _

theorem step_closed (g : Graph α) (s : Nat) (hwf : WellFormed g) (st st1 : Fronts α × Frontier α)
    (hs : step g st = some st1) (hinv : Inv g s st) (h : Closed g s st) : Closed g s st1 := by
  unfold step at hs
  cases hp : pqPop st.2 with
  | none => rw [hp] at hs; cases hs
  | some r =>
    obtain ⟨⟨cost, u⟩, rest⟩ := r
    rw [hp] at hs
    simp only [Option.some.injEq] at hs
    obtain ⟨_, _, hrest, hsplit⟩ := pqPop_some st.2 (cost, u) rest hp
    have hlen0 : LenInv g.n_objectives (st.1, rest) :=
      ⟨hinv.len.1, fun q hq => hinv.len.2 q (hrest q hq)⟩
    have hpc0 : PartClosed g cost u (st.1, rest) := by
      intro v x hx
      rcases h.closed v x hx with h1 | h1
      · rcases hsplit _ h1 with h2 | h2
        · right; left
          exact ⟨congrArg Prod.fst h2, congrArg Prod.snd h2⟩
        · exact Or.inl h2
      · exact Or.inr (Or.inr h1)
    have hpc := foldl_preserves
      (fun st2 => LenInv g.n_objectives st2 ∧ PartClosed g cost u st2)
      (relax g.n_objectives cost) (g.adj u)
      (fun st2 e _ h2 => ⟨relax_lenInv _ cost st2 e h2.1, relax_partClosed g cost u st2 e h2.1 h2.2⟩)
      (st.1, rest) ⟨hlen0, hpc0⟩
    have hall := foldl_relax_cov_all g.n_objectives cost (g.adj u) (st.1, rest) hlen0
      (fun e he => by rw [hinv.size]; exact hwf.target_lt he)
    rw [← hs]
    refine ⟨foldl_relax_cov_mono _ cost (g.adj u) (st.1, rest) hlen0 _ _ h.src, ?_⟩
    intro v x hx
    rcases hpc.2 v x hx with h1 | ⟨h1, h2⟩ | h1
    · exact Or.inl h1
    · right
      rw [h1, h2]
      exact hall
    · exact Or.inr h1

theorem init_closed (g : Graph α) (s : Nat) (hs : s < g.n_nodes) : Closed g s (initState g s) := by
  constructor
  · refine ⟨zeros g.n_objectives, ?_, VLe.refl _⟩
    rw [frontAt_init, if_pos ⟨rfl, hs⟩]
    exact List.mem_singleton_self _
  · intro u x hx
    rw [frontAt_init] at hx
    split at hx
    · rename_i hc
      left
      rw [List.mem_singleton.mp hx, ← hc.1]
      simp [initState, pqPush]
    · cases hx

theorem VLe_newCost_mono (m : Nat) (y c w : Cost α) (hy : y.length = m) (h : VLe y c) :
    VLe (newCost m y w) (newCost m c w) := by
  unfold newCost
  apply VLe_map_range
  intro i hi
  have := ((VLe_iff_getD y c).mp h).2 i (by rw [hy]; exact hi)
  exact add_le_add_right this _

/-- When the loop has stopped, every walk from the source is covered at its end node. -/
theorem closed_covers_walks (g : Graph α) (s : Nat) (fr : Fronts α)
    (hlen : LenInv g.n_objectives (fr, ([] : Frontier α))) (h : Closed g s (fr, [])) (p : List (Edge α)) (v : Nat)
    (hw : Walk g s p v) : Cov fr v (pathCost g.n_objectives p) := by
  induction hw with
  | nil => rw [pathCost_nil]; exact h.src
  | @snoc p u e _ he ih =>
    obtain ⟨y, hy, hle⟩ := ih
    rcases h.closed u y hy with h1 | h1
    · cases h1
    · obtain ⟨z, hz, hzle⟩ := h1 e he
      refine ⟨z, hz, VLe.trans hzle ?_⟩
      rw [pathCost_snoc]
      exact VLe_newCost_mono _ y _ _ (hlen.1 u y hy) hle

end ClosedInvariant

/-! ## Termination for non-negative weights -/

section Termination

variable {α : Type} [LinearOrderedAddCommGroup α]

theorem nodesOf_snoc (s : Nat) (p : List (Edge α)) (e : Edge α) :
    nodesOf s (p ++ [e]) = nodesOf s p ++ [e.to_] := by
  simp [nodesOf]

theorem GoodWalk.mono {g : Graph α} {s : Nat} {fr fr1 : Fronts α}
    (hm : ∀ v c, Cov fr v c → Cov fr1 v c) {p : List (Edge α)} {u : Nat}
    (h : GoodWalk g s fr p u) : GoodWalk g s fr1 p u := by
  induction h with
  | nil => exact GoodWalk.nil
  | snoc _ he hn hc ih => exact GoodWalk.snoc ih he hn (hm _ _ hc)

theorem GoodWalk.walk {g : Graph α} {s : Nat} {fr : Fronts α} {p : List (Edge α)} {u : Nat}
    (h : GoodWalk g s fr p u) : Walk g s p u := by
  induction h with
  | nil => exact Walk.nil
  | snoc _ he _ _ ih => exact Walk.snoc ih he

theorem GoodWalk.nodup {g : Graph α} {s : Nat} {fr : Fronts α} {p : List (Edge α)} {u : Nat}
    (h : GoodWalk g s fr p u) : (nodesOf s p).Nodup := by
  induction h with
  | nil => simp [nodesOf]
  | @snoc p u e _ _ hn _ ih =>
    rw [nodesOf_snoc, List.nodup_append]
    refine ⟨ih, List.nodup_singleton _, ?_⟩
    intro a ha hb
    have : a = e.to_ := by simpa using hb
    rw [this] at ha
    exact hn ha

theorem Walk.nodes_lt {g : Graph α} {s : Nat} (hwf : WellFormed g) (hs : s < g.n_nodes)
    {p : List (Edge α)} {u : Nat} (h : Walk g s p u) : ∀ v ∈ nodesOf s p, v < g.n_nodes := by
  induction h with
  | nil => intro v hv; simp [nodesOf] at hv; rw [hv]; exact hs
  | @snoc p u e _ he ih =>
    intro v hv
    rw [nodesOf_snoc] at hv
    rcases List.mem_append.mp hv with h1 | h1
    · exact ih v h1
    · have : v = e.to_ := by simpa using h1
      rw [this]; exact hwf.target_lt he

theorem GoodWalk.length_lt {g : Graph α} {s : Nat} {fr : Fronts α} (hwf : WellFormed g)
    (hs : s < g.n_nodes) {p : List (Edge α)} {u : Nat} (h : GoodWalk g s fr p u) :
    p.length + 1 ≤ g.n_nodes := by
  have hsub : nodesOf s p ⊆ List.range g.n_nodes := by
    intro v hv
    exact List.mem_range.mpr (h.walk.nodes_lt hwf hs v hv)
  have := (List.Nodup.subperm h.nodup hsub).length_le
  simpa [nodesOf] using this

theorem Walk.mem_labelsUpTo {g : Graph α} {s : Nat} {p : List (Edge α)} {u : Nat}
    (h : Walk g s p u) : ∀ k, p.length ≤ k → (u, pathCost g.n_objectives p) ∈ labelsUpTo g s k := by
  induction h with
  | nil =>
    intro k _
    induction k with
    | zero => simp [labelsUpTo, pathCost_nil]
    | succ k ih => unfold labelsUpTo; exact List.mem_append_left _ (ih (Nat.zero_le k))
  | @snoc p u e _ he ih =>
    intro k hk
    cases k with
    | zero => simp at hk
    | succ k =>
      have hp : p.length ≤ k := by simpa using hk
      unfold labelsUpTo
      apply List.mem_append_right
      rw [List.mem_flatMap]
      refine ⟨(u, pathCost g.n_objectives p), ih k hp, ?_⟩
      rw [List.mem_map]
      exact ⟨e, he, by rw [pathCost_snoc]⟩

theorem labelsUpTo_length (g : Graph α) (s : Nat) (k : Nat) :
    ∀ q ∈ labelsUpTo g s k, q.2.length = g.n_objectives := by
  induction k with
  | zero =>
    intro q hq
    have : q = (s, zeros g.n_objectives) := by simpa [labelsUpTo] using hq
    rw [this]; exact length_zeros _
  | succ k ih =>
    intro q hq
    unfold labelsUpTo at hq
    rcases List.mem_append.mp hq with h1 | h1
    · exact ih q h1
    · rw [List.mem_flatMap] at h1
      obtain ⟨q0, _, h2⟩ := h1
      rw [List.mem_map] at h2
      obtain ⟨e, _, h3⟩ := h2
      rw [← h3]; exact length_newCost _ _ _

theorem countP_lt_of_imp {β : Type} (p1 p2 : β → Bool) (l : List β)
    (himp : ∀ x ∈ l, p2 x = true → p1 x = true) (x0 : β) (hx0 : x0 ∈ l) (h1 : p1 x0 = true)
    (h2 : p2 x0 = false) : l.countP p2 < l.countP p1 := by
  induction l with
  | nil => cases hx0
  | cons y ys ih =>
    have hle : ys.countP p2 ≤ ys.countP p1 :=
      List.countP_mono_left (fun x hx => himp x (List.mem_cons_of_mem _ hx))
    rcases List.mem_cons.mp hx0 with h | h
    · subst h
      rw [List.countP_cons_of_pos _ _ h1, List.countP_cons_of_neg _ _ (by simp [h2])]
      omega
    · have ih2 := ih (fun x hx => himp x (List.mem_cons_of_mem _ hx)) h
      by_cases hy2 : p2 y = true
      · rw [List.countP_cons_of_pos _ _ hy2,
          List.countP_cons_of_pos _ _ (himp y (List.mem_cons_self _ _) hy2)]
        omega
      · rw [List.countP_cons_of_neg _ _ hy2]
        by_cases hy1 : p1 y = true
        · rw [List.countP_cons_of_pos _ _ hy1]; omega
        · rw [List.countP_cons_of_neg _ _ hy1]; exact ih2

theorem Cov.upward {fr : Fronts α} {v : Nat} {c0 c : Cost α} (h : Cov fr v c0) (hle : VLe c0 c) :
    Cov fr v c := by
  obtain ⟨y, hy, hyc⟩ := h
  exact ⟨y, hy, VLe.trans hyc hle⟩

theorem NonNegWeights.edge {g : Graph α} (hnn : NonNegWeights g) {u : Nat} {e : Edge α}
    (he : e ∈ g.adj u) : ∀ w ∈ e.weights, (0 : α) ≤ w :=
  hnn _ (adj_mem g u e he) e he

/-- Every node on a good walk has a covered label below the cost of the whole walk. -/
theorem GoodWalk.node_cov {g : Graph α} {s : Nat} {fr : Fronts α} (hnn : NonNegWeights g)
    (hsrc : Cov fr s (zeros g.n_objectives)) {p : List (Edge α)} {u : Nat}
    (h : GoodWalk g s fr p u) :
    ∀ v ∈ nodesOf s p, ∃ c0, VLe c0 (pathCost g.n_objectives p) ∧ Cov fr v c0 := by
  induction h with
  | nil =>
    intro v hv
    have : v = s := by simpa [nodesOf] using hv
    rw [this, pathCost_nil]
    exact ⟨zeros g.n_objectives, VLe.refl _, hsrc⟩
  | @snoc p u e _ he _ hc ih =>
    intro v hv
    rw [nodesOf_snoc] at hv
    rcases List.mem_append.mp hv with h1 | h1
    · obtain ⟨c0, hle, hcov⟩ := ih v h1
      refine ⟨c0, VLe.trans hle ?_, hcov⟩
      rw [pathCost_snoc]
      exact VLe_newCost _ _ _ (length_pathCost _ _) (hnn.edge he)
    · have : v = e.to_ := by simpa using h1
      rw [this]
      exact ⟨_, VLe.refl _, hc⟩

theorem isDominatedIn_iff_cov {m : Nat} {st : Fronts α × Frontier α} (hlen : LenInv m st)
    (v : Nat) (c : Cost α) (hc : c.length = m) :
    isDominatedIn (frontAt st.1 v) c = true ↔ Cov st.1 v c :=
  isDominatedIn_iff (fun y hy => by rw [hlen.1 v y hy, hc])

theorem relax_termState (g : Graph α) (s : Nat) (hwf : WellFormed g) (hnn : NonNegWeights g)
    (hs : s < g.n_nodes) (p : List (Edge α)) (u : Nat) (M : Nat) (st : Fronts α × Frontier α)
    (e : Edge α) (he : e ∈ g.adj u) (h : TermState g s p u M st) :
    TermState g s p u M (relax g.n_objectives (pathCost g.n_objectives p) st e) := by
  have hreach : Reach g s u (pathCost g.n_objectives p) := ⟨p, h.good.walk, rfl⟩
  have hinv1 := relax_inv g s u _ st e hreach he h.inv
  have hm : ∀ v c, Cov st.1 v c →
      Cov (relax g.n_objectives (pathCost g.n_objectives p) st e).1 v c :=
    fun v c hc => relax_cov_mono _ _ st e h.inv.len v c hc
  have hto : e.to_ < st.1.length := by rw [h.inv.size]; exact hwf.target_lt he
  have hnew : isDominatedIn (frontAt st.1 e.to_)
        (newCost g.n_objectives (pathCost g.n_objectives p) e.weights) = false →
      GoodWalk g s (relax g.n_objectives (pathCost g.n_objectives p) st e).1 (p ++ [e]) e.to_ := by
    intro h2
    have hnot : e.to_ ∉ nodesOf s p := by
      intro hin
      obtain ⟨c0, hle, hcov⟩ := h.good.node_cov hnn h.src _ hin
      have hcov2 : Cov st.1 e.to_ (newCost g.n_objectives (pathCost g.n_objectives p) e.weights) :=
        hcov.upward (VLe.trans hle (VLe_newCost _ _ _ (length_pathCost _ _) (hnn.edge he)))
      rw [← isDominatedIn_iff_cov h.inv.len _ _ (length_newCost _ _ _), h2] at hcov2
      cases hcov2
    refine GoodWalk.snoc (h.good.mono hm) he hnot ?_
    rw [pathCost_snoc]
    exact relax_cov_new _ _ st e h.inv.len hto
  refine ⟨hinv1, hm _ _ h.src, h.good.mono hm, ?_, ?_⟩
  · intro q hq
    rcases relax_mem_pq _ _ st e q hq with h1 | ⟨h1, h2⟩
    · obtain ⟨p1, hg, hc⟩ := h.term q h1
      exact ⟨p1, hg.mono hm, hc⟩
    · rw [h1]
      exact ⟨p ++ [e], hnew h2, pathCost_snoc _ _ _⟩
  · cases hd : isDominatedIn (frontAt st.1 e.to_)
        (newCost g.n_objectives (pathCost g.n_objectives p) e.weights)
    · have hlt : uncovered (labelsUpTo g s (g.n_nodes - 1))
            (relax g.n_objectives (pathCost g.n_objectives p) st e).1 <
          uncovered (labelsUpTo g s (g.n_nodes - 1)) st.1 := by
        unfold uncovered
        apply countP_lt_of_imp _ _ _ _
          (e.to_, newCost g.n_objectives (pathCost g.n_objectives p) e.weights)
        · rw [← pathCost_snoc]
          apply (Walk.snoc h.good.walk he).mem_labelsUpTo
          have := (hnew hd).length_lt hwf hs
          omega
        · simp [hd]
        · have := (isDominatedIn_iff_cov hinv1.len e.to_ _ (length_newCost _ _ _)).mpr
            (relax_cov_new _ _ st e h.inv.len hto)
          simp [this]
        · intro q hq h2
          have hql := labelsUpTo_length g s _ q hq
          by_contra h1
          have h1b : isDominatedIn (frontAt st.1 q.1) q.2 = true := by simpa using h1
          have := (isDominatedIn_iff_cov hinv1.len q.1 q.2 hql).mpr
            (hm _ _ ((isDominatedIn_iff_cov h.inv.len q.1 q.2 hql).mp h1b))
          simp [this] at h2
      have hb := h.bound
      unfold loopMeasure at hb ⊢
      rw [relax_accepted _ _ st e hd] at hlt ⊢
      simp only [List.length_cons] at hlt ⊢
      omega
    · rw [relax_rejected _ _ st e hd]; exact h.bound

/-- One iteration keeps the termination invariant and lowers the measure. -/
theorem step_term (g : Graph α) (s : Nat) (hwf : WellFormed g) (hnn : NonNegWeights g)
    (hs : s < g.n_nodes) (st st1 : Fronts α × Frontier α) (hstep : step g st = some st1)
    (hinv : Inv g s st) (hsrc : Cov st.1 s (zeros g.n_objectives)) (ht : TermInv g s st) :
    Cov st1.1 s (zeros g.n_objectives) ∧ TermInv g s st1 ∧
      loopMeasure g s st1 < loopMeasure g s st := by
  unfold step at hstep
  cases hp : pqPop st.2 with
  | none => rw [hp] at hstep; cases hstep
  | some r =>
    obtain ⟨⟨cost, u⟩, rest⟩ := r
    rw [hp] at hstep
    simp only [Option.some.injEq] at hstep
    obtain ⟨hx, hlen, hrest, _⟩ := pqPop_some st.2 (cost, u) rest hp
    obtain ⟨p, hg, hc⟩ := ht (cost, u) hx
    simp only at hg hc
    have h0 : TermState g s p u (loopMeasure g s st - 1) (st.1, rest) := by
      refine ⟨⟨hinv.size, ⟨hinv.len.1, fun q hq => hinv.len.2 q (hrest q hq)⟩, hinv.sound_fr,
        fun q hq => hinv.sound_pq q (hrest q hq), hinv.anti⟩, hsrc, hg,
        fun q hq => ht q (hrest q hq), ?_⟩
      unfold loopMeasure
      simp only
      omega
    have hfin := foldl_preserves (TermState g s p u (loopMeasure g s st - 1))
      (relax g.n_objectives (pathCost g.n_objectives p)) (g.adj u)
      (fun st2 e he h2 => relax_termState g s hwf hnn hs p u _ st2 e he h2) _ h0
    rw [hc] at hfin
    rw [hstep] at hfin
    refine ⟨hfin.src, hfin.term, ?_⟩
    have hb := hfin.bound
    have hpos : 0 < loopMeasure g s st := by
      unfold loopMeasure; omega
    omega

theorem init_term (g : Graph α) (s : Nat) : TermInv g s (initState g s) := by
  intro q hq
  have : q = (zeros g.n_objectives, s) := by simpa [initState, pqPush] using hq
  rw [this]
  exact ⟨[], GoodWalk.nil, pathCost_nil _⟩

theorem mainLoop_terminates (g : Graph α) (s : Nat) (hwf : WellFormed g) (hnn : NonNegWeights g)
    (hs : s < g.n_nodes) :
    ∀ (fuel : Nat) (st : Fronts α × Frontier α), Inv g s st → Cov st.1 s (zeros g.n_objectives) →
      TermInv g s st → loopMeasure g s st < fuel → ∃ fr, mainLoop g fuel st = some fr := by
  intro fuel
  induction fuel with
  | zero => intro st _ _ _ h; cases h
  | succ k ih =>
    intro st hinv hsrc ht hlt
    simp only [mainLoop]
    cases hstep : step g st with
    | none => exact ⟨st.1, rfl⟩
    | some st1 =>
      obtain ⟨h1, h2, h3⟩ := step_term g s hwf hnn hs st st1 hstep hinv hsrc ht
      exact ih st1 (step_inv g s st st1 hstep hinv) h1 h2 (by omega)

/-- For non-negative weights the main loop stops within `fuelBound` iterations. -/
theorem mainLoop_terminates_init (g : Graph α) (s : Nat) (hwf : WellFormed g)
    (hnn : NonNegWeights g) (hs : s < g.n_nodes) :
    ∃ fr, mainLoop g (fuelBound g s) (initState g s) = some fr := by
  apply mainLoop_terminates g s hwf hnn hs _ _ (init_inv g s) (init_closed g s hs).src
    (init_term g s)
  unfold loopMeasure fuelBound uncovered
  have h1 := List.countP_le_length
    (fun q : Nat × Cost α => !isDominatedIn (frontAt (initState g s).1 q.1) q.2)
    (l := labelsUpTo g s (g.n_nodes - 1))
  have h2 : (initState g s).2.length = 1 := by simp [initState, pqPush]
  omega

/-- More fuel does not change a result. -/
theorem mainLoop_fuel_mono (g : Graph α) :
    ∀ (k j : Nat) (st : Fronts α × Frontier α) (fr : Fronts α),
      mainLoop g k st = some fr → mainLoop g (k + j) st = some fr := by
  intro k
  induction k with
  | zero => intro j st fr h; simp [mainLoop] at h
  | succ k ih =>
    intro j st fr h
    rw [show k + 1 + j = (k + j) + 1 by omega]
    simp only [mainLoop] at h ⊢
    cases hs : step g st with
    | none => rw [hs] at h; exact h
    | some st1 => rw [hs] at h; exact ih j st1 fr h

theorem mainLoop_unique (g : Graph α) (k1 k2 : Nat) (st : Fronts α × Frontier α)
    (fr1 fr2 : Fronts α) (h1 : mainLoop g k1 st = some fr1) (h2 : mainLoop g k2 st = some fr2) :
    fr1 = fr2 := by
  have a := mainLoop_fuel_mono g k1 k2 st fr1 h1
  have b := mainLoop_fuel_mono g k2 k1 st fr2 h2
  rw [Nat.add_comm] at b
  rw [a] at b
  exact Option.some.inj b

end Termination

/-! ## The result of `computeParetoFronts` -/

section Results

variable {α : Type} [LinearOrderedAddCommGroup α]

theorem copyOwned_length (fr : Fronts α) (owned : List Nat) (acc : Fronts α) :
    (copyOwned fr owned acc).length = acc.length := by
  unfold copyOwned
  induction owned generalizing acc with
  | nil => rfl
  | cons a as ih => rw [List.foldl_cons, ih, List.length_set]

/-- The copy loop writes the entries of the filter and leaves the others. -/
theorem copyOwned_frontAt (fr : Fronts α) (owned : List Nat) (acc : Fronts α) (v : Nat) :
    frontAt (copyOwned fr owned acc) v =
      if v ∈ owned ∧ v < acc.length then frontAt fr v else frontAt acc v := by
  unfold copyOwned
  induction owned generalizing acc with
  | nil => simp
  | cons a as ih =>
    rw [List.foldl_cons, ih, List.length_set, frontAt_set]
    by_cases hv : v < acc.length
    · by_cases h1 : v ∈ as
      · simp [h1, hv]
      · by_cases h2 : a = v
        · subst h2; simp [hv]
        · have h3 : ¬ v = a := fun h => h2 h.symm
          simp [h1, h2, h3]
    · by_cases h2 : a = v
      · subst h2; simp [hv]
      · simp [hv, h2]

theorem computeParetoFronts_eq_some (g : Graph α) (owned : List Nat) (s : Nat) (out : Fronts α)
    (fuel : Nat) (r : Graph α × Fronts α) (h : g.computeParetoFronts owned s out fuel = some r) :
    ∃ fr, mainLoop g fuel (initState g s) = some fr ∧
      r = (g, copyOwned fr owned (List.replicate g.n_nodes [])) := by
  unfold Graph.computeParetoFronts at h
  cases hm : mainLoop g fuel (initState g s) with
  | none => rw [hm] at h; cases h
  | some fr =>
    rw [hm] at h
    simp only [Option.some.injEq] at h
    exact ⟨fr, rfl, by rw [← h]; rfl⟩

theorem computeParetoFronts_of_mainLoop (g : Graph α) (owned : List Nat) (s : Nat)
    (out : Fronts α) (fuel : Nat) (fr : Fronts α)
    (h : mainLoop g fuel (initState g s) = some fr) :
    g.computeParetoFronts owned s out fuel =
      some (g, copyOwned fr owned (List.replicate g.n_nodes [])) := by
  unfold Graph.computeParetoFronts
  rw [h]
  rfl

/-- The entry of node `v` in the result: the internal front when `v` is in the filter and in
range, empty otherwise. -/
theorem result_frontAt (fr : Fronts α) (owned : List Nat) (n v : Nat) :
    frontAt (copyOwned fr owned (List.replicate n [])) v =
      if v ∈ owned ∧ v < n then frontAt fr v else [] := by
  rw [copyOwned_frontAt, List.length_replicate, frontAt_replicate]

theorem mainLoop_inv (g : Graph α) (s : Nat) (fuel : Nat) (fr : Fronts α)
    (h : mainLoop g fuel (initState g s) = some fr) : Inv g s (fr, []) :=
  mainLoop_preserves g (Inv g s) (fun st st1 hs hp => step_inv g s st st1 hs hp) fuel _ fr h
    (init_inv g s)

theorem mainLoop_closed (g : Graph α) (s : Nat) (hwf : WellFormed g) (hs : s < g.n_nodes)
    (fuel : Nat) (fr : Fronts α) (h : mainLoop g fuel (initState g s) = some fr) :
    Closed g s (fr, []) :=
  (mainLoop_preserves g (fun st => Inv g s st ∧ Closed g s st)
    (fun st st1 hst hp => ⟨step_inv g s st st1 hst hp.1, step_closed g s hwf st st1 hst hp.1 hp.2⟩)
    fuel _ fr h ⟨init_inv g s, init_closed g s hs⟩).2

theorem VLe_iff_dominates_or_eq (a b : Cost α) : VLe a b ↔ Dominates a b ∨ a = b := by
  rw [Dominates_iff]
  constructor
  · intro h
    by_cases he : a = b
    · exact Or.inr he
    · exact Or.inl ⟨h, he⟩
  · rintro (h | h)
    · exact h.1
    · rw [h]; exact VLe.refl b

theorem Incomparable.antichain {pf : List (Cost α)} (h : Incomparable pf) : Antichain pf := by
  intro i j hi hj hij
  have hsym : ¬ VLe (pf.getD i []) (pf.getD j []) := by
    rw [List.getD_eq_getElem _ _ hi, List.getD_eq_getElem _ _ hj]
    rcases Nat.lt_or_gt_of_ne hij with hlt | hgt
    · exact (List.pairwise_iff_getElem.mp h i j hi hj hlt).1
    · exact (List.pairwise_iff_getElem.mp h j i hj hi hgt).2
  constructor
  · intro hd
    exact hsym ((Dominates_iff _ _).mp hd).1
  · intro he
    apply hsym
    rw [he]; exact VLe.refl _

theorem Incomparable.mem {pf : List (Cost α)} (h : Incomparable pf) {a b : Cost α}
    (ha : a ∈ pf) (hb : b ∈ pf) (hab : VLe a b) : a = b := by
  by_contra hne
  have hsym : Symmetric (fun a b : Cost α => ¬ VLe a b ∧ ¬ VLe b a) :=
    fun x y hxy => ⟨hxy.2, hxy.1⟩
  exact (List.Pairwise.forall hsym h ha hb hne).1 hab

theorem Walk.cost_nonneg {g : Graph α} {s : Nat} (hnn : NonNegWeights g) {p : List (Edge α)}
    {v : Nat} (h : Walk g s p v) : VLe (zeros g.n_objectives) (pathCost g.n_objectives p) := by
  induction h with
  | nil => rw [pathCost_nil]; exact VLe.refl _
  | @snoc p u e _ he ih =>
    rw [pathCost_snoc]
    exact VLe.trans ih (VLe_newCost _ _ _ (length_pathCost _ _) (hnn.edge he))

end Results

/-! ## Claims about the batch engine -/

section BatchClaims

variable {α : Type} [LinearOrderedAddCommGroup α]

/-- C1. Pareto exactness of the batch engine.  For a well-formed graph with non-negative
weights, a source `s < n` and a filter of nodes in range, `computeParetoFronts` returns (the
main loop stops within `fuelBound g s` iterations), and in whatever it returns, for every
node `v` of the filter: (i) every walk from `s` to `v` has its cost dominated or equalled by a
label of the returned front of `v`; (ii) no label of that front is dominated by the cost of a
walk from `s` to `v`; and every label of that front is the cost of a walk from `s` to `v`. -/
theorem computeParetoFronts_exact (g : Graph α) (owned : List Nat) (s : Nat) (out : Fronts α)
    (hwf : WellFormed g) (hnn : NonNegWeights g) (hs : s < g.n_nodes)
    (hown : ∀ v ∈ owned, v < g.n_nodes) :
    (∃ r, g.computeParetoFronts owned s out (fuelBound g s) = some r) ∧
    ∀ fuel r, g.computeParetoFronts owned s out fuel = some r →
      ∀ v ∈ owned,
        (∀ p, Walk g s p v →
          ∃ y ∈ frontAt r.2 v,
            Dominates y (pathCost g.n_objectives p) ∨ y = pathCost g.n_objectives p) ∧
        (∀ x ∈ frontAt r.2 v, ∀ p, Walk g s p v → ¬ Dominates (pathCost g.n_objectives p) x) ∧
        (∀ x ∈ frontAt r.2 v, ∃ p, Walk g s p v ∧ pathCost g.n_objectives p = x) := by
  constructor
  · obtain ⟨fr, hfr⟩ := mainLoop_terminates_init g s hwf hnn hs
    exact ⟨_, computeParetoFronts_of_mainLoop g owned s out _ fr hfr⟩
  · intro fuel r hr v hv
    obtain ⟨fr, hfr, hreq⟩ := computeParetoFronts_eq_some g owned s out fuel r hr
    have hinv := mainLoop_inv g s fuel fr hfr
    have hcl := mainLoop_closed g s hwf hs fuel fr hfr
    have hfront : frontAt r.2 v = frontAt fr v := by
      rw [hreq]
      simp only
      rw [result_frontAt, if_pos ⟨hv, hown v hv⟩]
    rw [hfront]
    have hcover : ∀ p, Walk g s p v → ∃ y ∈ frontAt fr v, VLe y (pathCost g.n_objectives p) :=
      fun p hp => closed_covers_walks g s fr hinv.len hcl p v hp
    refine ⟨?_, ?_, ?_⟩
    · intro p hp
      obtain ⟨y, hy, hle⟩ := hcover p hp
      exact ⟨y, hy, (VLe_iff_dominates_or_eq _ _).mp hle⟩
    · intro x hx p hp hdom
      obtain ⟨y, hy, hle⟩ := hcover p hp
      have hpx := (Dominates_iff _ _).mp hdom
      have hyx : y = x := (hinv.anti v).mem hy hx (VLe.trans hle hpx.1)
      rw [hyx] at hle
      exact hpx.2 (VLe.antisymm hpx.1 hle)
    · intro x hx
      exact hinv.sound_fr v x hx

/-- C3. Antichain invariant.  After any number of iterations of the main loop, and in the
returned result, the front of every node has no two entries at distinct positions of which
one dominates the other, and no two equal entries at distinct positions. -/
theorem computeParetoFronts_antichain (g : Graph α) (owned : List Nat) (s : Nat)
    (out : Fronts α) (hwf : WellFormed g) (hs : s < g.n_nodes) :
    (∀ k st, iterate g (initState g s) k = some st → ∀ v, Antichain (frontAt st.1 v)) ∧
    (∀ fuel r, g.computeParetoFronts owned s out fuel = some r →
      ∀ v, Antichain (frontAt r.2 v)) := by
  constructor
  · intro k st h v
    exact ((iterate_inv g s k st h).anti v).antichain
  · intro fuel r hr v
    obtain ⟨fr, hfr, hreq⟩ := computeParetoFronts_eq_some g owned s out fuel r hr
    rw [hreq]
    simp only
    rw [result_frontAt]
    split
    · exact ((mainLoop_inv g s fuel fr hfr).anti v).antichain
    · intro i j hi
      cases hi

/-- C4. Source front.  For a well-formed graph with non-negative weights and a source
`s < n` in the filter, `computeParetoFronts` returns, and the front it returns for `s` is the
one-element list holding the zero vector of length `n_objectives`. -/
theorem computeParetoFronts_source (g : Graph α) (owned : List Nat) (s : Nat) (out : Fronts α)
    (hwf : WellFormed g) (hnn : NonNegWeights g) (hs : s < g.n_nodes) (hown : s ∈ owned) :
    (∃ r, g.computeParetoFronts owned s out (fuelBound g s) = some r) ∧
    ∀ fuel r, g.computeParetoFronts owned s out fuel = some r →
      frontAt r.2 s = [zeros g.n_objectives] := by
  constructor
  · obtain ⟨fr, hfr⟩ := mainLoop_terminates_init g s hwf hnn hs
    exact ⟨_, computeParetoFronts_of_mainLoop g owned s out _ fr hfr⟩
  · intro fuel r hr
    obtain ⟨fr, hfr, hreq⟩ := computeParetoFronts_eq_some g owned s out fuel r hr
    have hinv := mainLoop_inv g s fuel fr hfr
    have hcl := mainLoop_closed g s hwf hs fuel fr hfr
    rw [hreq]
    simp only
    rw [result_frontAt, if_pos ⟨hown, hs⟩]
    obtain ⟨y, hy, hle⟩ := hcl.src
    have hy0 : y = zeros g.n_objectives := by
      obtain ⟨p, hp, hc⟩ := hinv.sound_fr s y hy
      rw [← hc] at hle ⊢
      exact VLe.antisymm hle (hp.cost_nonneg hnn)
    rw [hy0] at hy
    have hall : ∀ x ∈ frontAt fr s, x = zeros g.n_objectives := by
      intro x hx
      obtain ⟨p, hp, hc⟩ := hinv.sound_fr s x hx
      have h0x : VLe (zeros g.n_objectives) x := by rw [← hc]; exact hp.cost_nonneg hnn
      exact ((hinv.anti s).mem hy hx h0x).symm
    have hanti := hinv.anti s
    cases hf : frontAt fr s with
    | nil => rw [hf] at hy; cases hy
    | cons a t =>
      rw [hf] at hall hanti
      have ha := hall a (List.mem_cons_self _ _)
      cases t with
      | nil => rw [ha]
      | cons b t2 =>
        have hb := hall b (List.mem_cons_of_mem _ (List.mem_cons_self _ _))
        have hab := (List.pairwise_cons.mp hanti).1 b (List.mem_cons_self _ _)
        exact absurd (by rw [ha, hb]; exact VLe.refl _) hab.1

end BatchClaims

section Scenarios

theorem mainLoop_diamond :
    mainLoop diamond 6 (initState diamond 0) =
      some [[[0, 0]], [[1, 5]], [[5, 1]], [[2, 6], [6, 2]]] := by
  decide

theorem mainLoop_diamondPlus :
    mainLoop diamondPlus 7 (initState diamondPlus 0) =
      some [[[0, 0]], [[1, 5]], [[5, 1]], [[2, 6], [6, 2]]] := by
  decide

theorem diamond_run (owned : List Nat) (out : Fronts Int) (fuel : Nat)
    (h3 : 3 ∈ owned) (hfuel : 6 ≤ fuel) :
    (diamond.computeParetoFronts owned 0 out fuel).map (fun r => frontAt r.2 3) =
      some [[2, 6], [6, 2]] := by
  obtain ⟨j, rfl⟩ := Nat.exists_eq_add_of_le hfuel
  rw [computeParetoFronts_of_mainLoop diamond owned 0 out (6 + j) _
    (mainLoop_fuel_mono diamond 6 j _ _ mainLoop_diamond)]
  simp only [Option.map_some']
  rw [result_frontAt, if_pos ⟨h3, by decide⟩]
  rfl

/-- C5. Concrete scenario.  On the four-node two-objective graph with edges `0->1 [1,5]`,
`0->2 [5,1]`, `1->3 [1,1]`, `2->3 [1,1]` added in that order, a run from source 0 with node 3
in the filter (six iterations of the loop suffice) returns for node 3 the front
`[[2,6], [6,2]]`: two entries, `[2,6]` and `[6,2]`. -/
theorem diamond_front_three (owned : List Nat) (out : Fronts Int) (fuel : Nat)
    (h3 : 3 ∈ owned) (hfuel : 6 ≤ fuel) :
    (diamond.computeParetoFronts owned 0 out fuel).map (fun r => frontAt r.2 3) =
      some [[2, 6], [6, 2]] :=
  diamond_run owned out fuel h3 hfuel

theorem diamond_front_three_witness :
    (diamond.computeParetoFronts [3] 0 [] 6).map (fun r => frontAt r.2 3) =
      some [[2, 6], [6, 2]] :=
  diamond_front_three [3] [] 6 (by decide) (by decide)

/-- C6. Concrete scenario with a dominated edge.  After `addEdge(0, 3, [10,10])` on the
scenario graph, a fresh run from source 0 with node 3 in the filter returns for node 3 the
front `[[2,6], [6,2]]`, the same as the run before the insertion returns; `[10,10]` is not a
member. -/
theorem diamondPlus_front_three (owned : List Nat) (out : Fronts Int) (fuel : Nat)
    (h3 : 3 ∈ owned) (hfuel : 7 ≤ fuel) :
    (diamondPlus.computeParetoFronts owned 0 out fuel).map (fun r => frontAt r.2 3) =
      some [[2, 6], [6, 2]] ∧
    (diamondPlus.computeParetoFronts owned 0 out fuel).map (fun r => frontAt r.2 3) =
      (diamond.computeParetoFronts owned 0 out fuel).map (fun r => frontAt r.2 3) ∧
    ([10, 10] : Cost Int) ∉ ([[2, 6], [6, 2]] : List (Cost Int)) := by
  have hplus : (diamondPlus.computeParetoFronts owned 0 out fuel).map (fun r => frontAt r.2 3) =
      some [[2, 6], [6, 2]] := by
    obtain ⟨j, rfl⟩ := Nat.exists_eq_add_of_le hfuel
    rw [computeParetoFronts_of_mainLoop diamondPlus owned 0 out (7 + j) _
      (mainLoop_fuel_mono diamondPlus 7 j _ _ mainLoop_diamondPlus)]
    simp only [Option.map_some']
    rw [result_frontAt, if_pos ⟨h3, by decide⟩]
    rfl
  refine ⟨hplus, ?_, by decide⟩
  rw [hplus, diamond_run owned out fuel h3 (by omega)]

theorem diamondPlus_front_three_witness :
    (diamondPlus.computeParetoFronts [3] 0 [] 7).map (fun r => frontAt r.2 3) =
      some [[2, 6], [6, 2]] ∧
    (diamondPlus.computeParetoFronts [3] 0 [] 7).map (fun r => frontAt r.2 3) =
      (diamond.computeParetoFronts [3] 0 [] 7).map (fun r => frontAt r.2 3) ∧
    ([10, 10] : Cost Int) ∉ ([[2, 6], [6, 2]] : List (Cost Int)) :=
  diamondPlus_front_three [3] [] 7 (by decide) (by decide)

end Scenarios

section FilterClaims

variable {α : Type} [LinearOrderedAddCommGroup α]

/-- C7. The output filter only restricts what is copied.  When a run with filter `F` returns,
the result has `n` entries, the run with the filter of all nodes returns too on the same
bound, every node of `F` has the same entry in both results, and every node outside `F` has
the empty entry. -/
theorem computeParetoFronts_filter (g : Graph α) (F : List Nat) (s : Nat) (out : Fronts α)
    (fuel : Nat) (r : Graph α × Fronts α) (hwf : WellFormed g) (hs : s < g.n_nodes)
    (hF : ∀ v ∈ F, v < g.n_nodes) (h : g.computeParetoFronts F s out fuel = some r) :
    r.2.length = g.n_nodes ∧
    (∃ rAll, g.computeParetoFronts (List.range g.n_nodes) s out fuel = some rAll ∧
      ∀ v ∈ F, r.2.getD v [] = rAll.2.getD v []) ∧
    ∀ v, v ∉ F → r.2.getD v [] = [] := by
  obtain ⟨fr, hfr, hreq⟩ := computeParetoFronts_eq_some g F s out fuel r h
  refine ⟨?_, ⟨_, computeParetoFronts_of_mainLoop g (List.range g.n_nodes) s out fuel fr hfr, ?_⟩,
    ?_⟩
  · rw [hreq]
    simp only
    rw [copyOwned_length, List.length_replicate]
  · intro v hv
    have h1 := result_frontAt fr F g.n_nodes v
    have h2 := result_frontAt fr (List.range g.n_nodes) g.n_nodes v
    rw [if_pos ⟨hv, hF v hv⟩] at h1
    rw [if_pos ⟨List.mem_range.mpr (hF v hv), hF v hv⟩] at h2
    unfold frontAt at h1 h2
    rw [hreq]
    simp only
    rw [h1, h2]
  · intro v hv
    have h1 := result_frontAt fr F g.n_nodes v
    rw [if_neg (fun hc => hv hc.1)] at h1
    unfold frontAt at h1
    rw [hreq]
    exact h1

/-- C8. Idempotence.  A run that returns leaves the graph as it was, and a second run on the
returned graph with the same source and filter returns the same result, whatever the output
container holds before the call (the result of the first run included). -/
theorem computeParetoFronts_idempotent (g : Graph α) (owned : List Nat) (s : Nat)
    (out : Fronts α) (fuel : Nat) (r : Graph α × Fronts α) (hwf : WellFormed g)
    (hs : s < g.n_nodes) (h : g.computeParetoFronts owned s out fuel = some r) :
    r.1 = g ∧ ∀ out2, r.1.computeParetoFronts owned s out2 fuel = some r := by
  obtain ⟨fr, hfr, hreq⟩ := computeParetoFronts_eq_some g owned s out fuel r h
  have h1 : r.1 = g := by rw [hreq]
  refine ⟨h1, ?_⟩
  intro out2
  rw [h1, computeParetoFronts_of_mainLoop g owned s out2 fuel fr hfr, hreq]

end FilterClaims

section NonDominatedClaims

variable {α : Type} [LinearOrderedAddCommGroup α]

theorem scanFlags_and (p c : List α) (sb : Bool) :
    ((scanFlags p c sb).1 && (scanFlags p c sb).2) = dominatesLoop p c sb := by
  induction p generalizing c sb with
  | nil => simp [scanFlags, dominatesLoop]
  | cons x xs ih =>
    cases c with
    | nil => simp [scanFlags, dominatesLoop]
    | cons y ys =>
      unfold scanFlags dominatesLoop
      by_cases h : y < x
      · simp [h]
      · simp only [h, if_false]
        exact ih ys _

theorem isNonDominated_eq_false (candidate : Path α) (currentSet : List (Path α)) :
    isNonDominated candidate currentSet = false ↔
      ∃ p ∈ currentSet, dominates p.objectives candidate.objectives = true := by
  induction currentSet with
  | nil => simp [isNonDominated]
  | cons q rest ih =>
    unfold isNonDominated
    simp only [scanFlags_and]
    by_cases h : dominatesLoop q.objectives candidate.objectives false = true
    · simp only [h, if_true, true_iff]
      exact ⟨q, List.mem_cons_self _ _, h⟩
    · simp only [h, Bool.false_eq_true, if_false]
      rw [ih]
      constructor
      · rintro ⟨p, hp, hd⟩
        exact ⟨p, List.mem_cons_of_mem _ hp, hd⟩
      · rintro ⟨p, hp, hd⟩
        rcases List.mem_cons.mp hp with h1 | h1
        · rw [h1] at hd
          exact absurd hd h
        · exact ⟨p, h1, hd⟩

/-- C9, as amended.  For a candidate and a set of paths whose objective vectors all have the
length of the candidate's, `isNonDominated` returns false if and only if some member of the
set dominates the candidate (no worse in every objective, strictly better in one). -/
theorem isNonDominated_false_iff (candidate : Path α) (currentSet : List (Path α))
    (hlen : ∀ p ∈ currentSet, p.objectives.length = candidate.objectives.length) :
    isNonDominated candidate currentSet = false ↔
      ∃ p ∈ currentSet, Dominates p.objectives candidate.objectives := by
  rw [isNonDominated_eq_false]
  constructor
  · rintro ⟨p, hp, hd⟩
    exact ⟨p, hp, (dominates_eq_true_iff (hlen p hp)).mp hd⟩
  · rintro ⟨p, hp, hd⟩
    exact ⟨p, hp, (dominates_eq_true_iff (hlen p hp)).mpr hd⟩

/-- C9, counterexample.  A set whose only member has the candidate's objectives: the claimed
equivalence fails, since the function returns true. -/
theorem isNonDominated_equal_member :
    ¬ (isNonDominated (⟨[1], [0, 1]⟩ : Path Int) [⟨[1], [0, 1]⟩] = false ↔
        ∃ p ∈ ([⟨[1], [0, 1]⟩] : List (Path Int)),
          Dominates p.objectives ([1] : List Int) ∨ p.objectives = ([1] : List Int)) := by
  intro h
  have hr : ∃ p ∈ ([⟨[1], [0, 1]⟩] : List (Path Int)),
      Dominates p.objectives ([1] : List Int) ∨ p.objectives = ([1] : List Int) :=
    ⟨⟨[1], [0, 1]⟩, List.mem_singleton_self _, Or.inr rfl⟩
  have hl := h.mpr hr
  revert hl
  decide

theorem isNonDominated_false_iff_witness :
    isNonDominated (⟨[2, 2], [0, 1]⟩ : Path Int) [⟨[1, 2], [0, 1]⟩] = false ↔
      ∃ p ∈ ([⟨[1, 2], [0, 1]⟩] : List (Path Int)), Dominates p.objectives ([2, 2] : List Int) :=
  isNonDominated_false_iff ⟨[2, 2], [0, 1]⟩ [⟨[1, 2], [0, 1]⟩] (by decide)

end NonDominatedClaims

section IndexClaims

variable {α : Type}

theorem getD_set_nil {β : Type} (l : List (List β)) (v w : Nat) (x : List β) :
    (l.set v x).getD w [] = if v = w ∧ v < l.length then x else l.getD w [] := by
  rw [List.getD_eq_getElem?_getD, List.getD_eq_getElem?_getD, List.getElem?_set]
  by_cases h : v = w
  · subst h
    by_cases hl : v < l.length
    · simp [hl]
    · simp [hl, List.getElem?_eq_none (not_lt.mp hl)]
  · simp [h]

theorem rebuildIndex_other (frm : Nat) (es : List (Edge α)) (k : Nat)
    (idx : Nat → Nat → Option Nat) (a b : Nat) (ha : a ≠ frm) :
    Graph.rebuildIndex frm es k idx a b = idx a b := by
  induction es generalizing k idx with
  | nil => rfl
  | cons e es ih =>
    unfold Graph.rebuildIndex
    rw [ih]
    simp [Graph.setIndex, ha]

/-- What the rebuilt index holds for a target: the old entry when no edge of the list has that
target, the position of such an edge otherwise. -/
theorem rebuildIndex_some (frm : Nat) (es : List (Edge α)) (k : Nat)
    (idx : Nat → Nat → Option Nat) (b i : Nat)
    (h : Graph.rebuildIndex frm es k idx frm b = some i) :
    (idx frm b = some i ∧ ∀ e ∈ es, e.to_ ≠ b) ∨
      (k ≤ i ∧ (es[i - k]?).map (fun e => e.to_) = some b) := by
  induction es generalizing k idx with
  | nil => exact Or.inl ⟨h, fun e he => by cases he⟩
  | cons e es ih =>
    unfold Graph.rebuildIndex at h
    rcases ih (k + 1) _ h with ⟨h1, h2⟩ | ⟨h1, h2⟩
    · by_cases hb : b = e.to_
      · right
        have hik : i = k := by
          simp only [Graph.setIndex, hb, and_self, if_true, Option.some.injEq] at h1
          exact h1.symm
        subst hik
        simp [hb]
      · left
        have h3 : idx frm b = some i := by
          simpa [Graph.setIndex, hb] using h1
        refine ⟨h3, ?_⟩
        intro e1 he1
        rcases List.mem_cons.mp he1 with h4 | h4
        · rw [h4]; exact fun hc => hb hc.symm
        · exact h2 e1 h4
    · right
      refine ⟨by omega, ?_⟩
      have : i - k = (i - (k + 1)) + 1 := by omega
      rw [this, List.getElem?_cons_succ]
      exact h2

theorem rebuildIndex_isSome (frm : Nat) (es : List (Edge α)) (k : Nat)
    (idx : Nat → Nat → Option Nat) (b : Nat)
    (h : (∃ i, idx frm b = some i) ∨ ∃ e ∈ es, e.to_ = b) :
    ∃ i, Graph.rebuildIndex frm es k idx frm b = some i := by
  induction es generalizing k idx with
  | nil =>
    rcases h with h | ⟨e, he, _⟩
    · exact h
    · cases he
  | cons e es ih =>
    unfold Graph.rebuildIndex
    apply ih
    by_cases hb : b = e.to_
    · left
      exact ⟨k, by simp [Graph.setIndex, hb]⟩
    · rcases h with ⟨i, hi⟩ | ⟨e1, he1, h1⟩
      · left
        exact ⟨i, by simpa [Graph.setIndex, hb] using hi⟩
      · rcases List.mem_cons.mp he1 with h2 | h2
        · rw [h2] at h1; exact absurd h1.symm hb
        · exact Or.inr ⟨e1, h2, h1⟩

theorem eraseIndex_other (idx : Nat → Nat → Option Nat) (frm dst a b : Nat) (ha : a ≠ frm) :
    Graph.eraseIndex idx frm dst a b = idx a b := by
  simp [Graph.eraseIndex, ha]

theorem setWeights_targets (es : List (Edge α)) (i : Nat) (w : List α) :
    (Graph.setWeights es i w).map (fun e => e.to_) = es.map (fun e => e.to_) := by
  induction es generalizing i with
  | nil => rfl
  | cons e es ih =>
    cases i with
    | zero => simp [Graph.setWeights]
    | succ k => simp [Graph.setWeights, ih]

theorem neighbors_addEdge (g : Graph α) (frm dst : Nat) (w : List α) (a : Nat) :
    (g.addEdge frm dst w).neighbors a =
      if frm = a ∧ frm < g.adjList.length then g.neighbors frm ++ [⟨dst, w⟩]
      else g.neighbors a := by
  simp only [Graph.addEdge, Graph.neighbors, Graph.adj]
  rw [getD_set_nil]

theorem addEdge_consistent (g : Graph α) (frm dst : Nat) (w : List α)
    (hfrm : frm < g.adjList.length) (h : IndexConsistent g) :
    IndexConsistent (g.addEdge frm dst w) := by
  constructor
  · intro a b i hi
    rw [neighbors_addEdge]
    have hidx : (g.addEdge frm dst w).edgeIndex a b =
        if a = frm ∧ b = dst then some (g.neighbors frm).length else g.edgeIndex a b := by
      simp [Graph.addEdge, Graph.setIndex, Graph.neighbors, Graph.adj]
    rw [hidx] at hi
    by_cases hc : a = frm ∧ b = dst
    · rw [if_pos hc] at hi
      obtain ⟨ha, hb⟩ := hc
      subst ha
      rw [if_pos ⟨rfl, hfrm⟩]
      have : i = (g.neighbors a).length := (Option.some.inj hi).symm
      subst this
      refine ⟨by simp, ?_⟩
      rw [List.getElem?_concat_length]
      simp [hb]
    · rw [if_neg hc] at hi
      obtain ⟨h1, h2⟩ := h.1 a b i hi
      by_cases ha : frm = a
      · subst ha
        rw [if_pos ⟨rfl, hfrm⟩]
        refine ⟨by simp; omega, ?_⟩
        rw [List.getElem?_append_left h1]
        exact h2
      · rw [if_neg (fun hx => ha hx.1)]
        exact ⟨h1, h2⟩
  · intro a e he
    rw [neighbors_addEdge] at he
    have hidx : ∀ b, (g.addEdge frm dst w).edgeIndex a b =
        if a = frm ∧ b = dst then some (g.neighbors frm).length else g.edgeIndex a b := by
      intro b
      simp [Graph.addEdge, Graph.setIndex, Graph.neighbors, Graph.adj]
    rw [hidx]
    by_cases hc : a = frm ∧ e.to_ = dst
    · rw [if_pos hc]; exact ⟨_, rfl⟩
    · rw [if_neg hc]
      by_cases ha : frm = a
      · subst ha
        rw [if_pos ⟨rfl, hfrm⟩] at he
        rcases List.mem_append.mp he with h1 | h1
        · exact h.2 frm e h1
        · have : e = ⟨dst, w⟩ := by simpa using h1
          rw [this] at hc
          exact absurd ⟨rfl, rfl⟩ hc
      · rw [if_neg (fun hx => ha hx.1)] at he
        exact h.2 a e he

theorem updateEdgeWeight_consistent (g : Graph α) (frm dst : Nat) (w : List α)
    (h : IndexConsistent g) : IndexConsistent (g.updateEdgeWeight frm dst w) := by
  unfold Graph.updateEdgeWeight
  cases hidx : g.edgeIndex frm dst with
  | none => exact h
  | some j =>
    simp only
    have hn : ∀ a, (({ g with adjList := g.adjList.set frm (Graph.setWeights (g.adj frm) j w) } :
        Graph α).neighbors a).map (fun e => e.to_) = (g.neighbors a).map (fun e => e.to_) := by
      intro a
      simp only [Graph.neighbors]
      rw [getD_set_nil]
      split
      · rename_i hc
        rw [setWeights_targets, ← hc.1]
        rfl
      · rfl
    constructor
    · intro a b i hi
      have h1 := h.1 a b i hi
      have hl := congrArg List.length (hn a)
      simp only [List.length_map] at hl
      rw [hl]
      refine ⟨h1.1, ?_⟩
      rw [← List.getElem?_map, hn a, List.getElem?_map]
      exact h1.2
    · intro a e he
      have hm : e.to_ ∈ (g.neighbors a).map (fun e => e.to_) := by
        rw [← hn a]
        exact List.mem_map_of_mem _ he
      obtain ⟨e1, he1, heq⟩ := List.mem_map.mp hm
      have := h.2 a e1 he1
      rw [heq] at this
      exact this

theorem removeEdge_consistent (g : Graph α) (frm dst : Nat)
    (hfrm : frm < g.adjList.length) (h : IndexConsistent g) :
    IndexConsistent (g.removeEdge frm dst) := by
  unfold Graph.removeEdge
  cases hidx : g.edgeIndex frm dst with
  | none => exact h
  | some j =>
    simp only
    obtain ⟨_, hjt⟩ := h.1 frm dst j hidx
    have hn : ∀ a, ({ g with
        adjList := g.adjList.set frm ((g.adj frm).eraseIdx j)
        edgeIndex := Graph.rebuildIndex frm ((g.adj frm).eraseIdx j) 0
          (Graph.eraseIndex g.edgeIndex frm dst)
        n_edges := g.n_edges - 1 } : Graph α).neighbors a =
        if frm = a then (g.neighbors frm).eraseIdx j else g.neighbors a := by
      intro a
      simp only [Graph.neighbors, Graph.adj]
      rw [getD_set_nil]
      by_cases ha : frm = a
      · rw [if_pos ⟨ha, hfrm⟩, if_pos ha]
      · rw [if_neg (fun hx => ha hx.1), if_neg ha]
    constructor
    · intro a b i hi
      rw [hn a]
      simp only at hi
      by_cases ha : frm = a
      · subst ha
        rw [if_pos rfl]
        rcases rebuildIndex_some frm _ 0 _ b i hi with ⟨h1, h2⟩ | ⟨_, h2⟩
        · exfalso
          have hb : b ≠ dst := by
            intro hb
            simp [Graph.eraseIndex, hb] at h1
          have h3 : g.edgeIndex frm b = some i := by
            simpa [Graph.eraseIndex, hb] using h1
          obtain ⟨_, h5⟩ := h.1 frm b i h3
          obtain ⟨e, he, het⟩ := Option.map_eq_some'.mp h5
          have hij : i ≠ j := by
            intro hij
            rw [hij, hjt] at h5
            exact hb (Option.some.inj h5).symm
          have hmem : e ∈ (g.adj frm).eraseIdx j :=
            List.mem_eraseIdx_iff_getElem?.mpr ⟨i, hij, he⟩
          exact h2 e hmem het
        · simp only [Nat.sub_zero] at h2
          obtain ⟨e, he, _⟩ := Option.map_eq_some'.mp h2
          have hlt : i < ((g.adj frm).eraseIdx j).length := by
            by_contra hge
            rw [List.getElem?_eq_none (not_lt.mp hge)] at he
            cases he
          exact ⟨hlt, h2⟩
      · rw [if_neg ha]
        rw [rebuildIndex_other frm _ 0 _ a b (fun hx => ha hx.symm),
          eraseIndex_other _ _ _ _ _ (fun hx => ha hx.symm)] at hi
        exact h.1 a b i hi
    · intro a e he
      rw [hn a] at he
      simp only
      by_cases ha : frm = a
      · subst ha
        rw [if_pos rfl] at he
        exact rebuildIndex_isSome frm _ 0 _ e.to_ (Or.inr ⟨e, he, rfl⟩)
      · rw [if_neg ha] at he
        rw [rebuildIndex_other frm _ 0 _ a e.to_ (fun hx => ha hx.symm),
          eraseIndex_other _ _ _ _ _ (fun hx => ha hx.symm)]
        exact h.2 a e he

theorem applyMutation_length (g : Graph α) (m : Mutation α) :
    (g.applyMutation m).adjList.length = g.adjList.length := by
  cases m with
  | addEdge frm dst w => simp [Graph.applyMutation, Graph.addEdge]
  | removeEdge frm dst =>
    simp only [Graph.applyMutation, Graph.removeEdge]
    split <;> simp
  | updateEdgeWeight frm dst w =>
    simp only [Graph.applyMutation, Graph.updateEdgeWeight]
    split <;> simp

theorem applyMutation_consistent (g : Graph α) (m : Mutation α)
    (hm : m.source < g.adjList.length) (h : IndexConsistent g) :
    IndexConsistent (g.applyMutation m) := by
  cases m with
  | addEdge frm dst w => exact addEdge_consistent g frm dst w hm h
  | removeEdge frm dst => exact removeEdge_consistent g frm dst hm h
  | updateEdgeWeight frm dst w => exact updateEdgeWeight_consistent g frm dst w h

theorem applyAll_consistent (ms : List (Mutation α)) (g : Graph α)
    (hm : ∀ m ∈ ms, m.source < g.adjList.length) (h : IndexConsistent g) :
    IndexConsistent (g.applyAll ms) := by
  induction ms generalizing g with
  | nil => exact h
  | cons m ms ih =>
    unfold Graph.applyAll
    rw [List.foldl_cons]
    apply ih
    · intro m1 hm1
      rw [applyMutation_length]
      exact hm m1 (List.mem_cons_of_mem _ hm1)
    · exact applyMutation_consistent g m (hm m (List.mem_cons_self _ _)) h

theorem setNumNodes_default_length (n : Nat) :
    ((Graph.default : Graph α).setNumNodes n).adjList.length = n := by
  simp [Graph.setNumNodes, Graph.default, Graph.resizeAdj]

/-- C10. Index consistency.  Starting from a default-constructed graph sized with
`setNumNodes(n)`, after any finite sequence of `addEdge`, `removeEdge` and `updateEdgeWeight`
calls with `from < n`: whenever the index maps `(from, to)` to `i`, `i` is a position of the
adjacency list of `from` and the edge there has target `to`; and every edge stored in the
adjacency list of `from` has its target as a key of the index for `from`. -/
theorem index_consistent (n : Nat) (ms : List (Mutation α)) (hm : ∀ m ∈ ms, m.source < n) :
    IndexConsistent (((Graph.default : Graph α).setNumNodes n).applyAll ms) := by
  apply applyAll_consistent
  · rw [setNumNodes_default_length]; exact hm
  · constructor
    · intro frm dst i hi
      simp [Graph.setNumNodes, Graph.default] at hi
    · intro frm e he
      exfalso
      simp only [Graph.neighbors, Graph.setNumNodes, Graph.default, Graph.resizeAdj,
        List.take_nil, List.nil_append, List.length_nil, Nat.sub_zero] at he
      have h2 : (List.replicate n ([] : List (Edge α))).getD frm [] = [] := by
        rw [List.getD_eq_getElem?_getD]
        by_cases hf : frm < n
        · simp [List.getElem?_replicate, hf]
        · simp [List.getElem?_replicate, hf]
      rw [h2] at he
      cases he

theorem index_consistent_witness :
    IndexConsistent (((Graph.default : Graph Int).setNumNodes 4).applyAll
      [.addEdge 0 1 [1, 5], .addEdge 0 2 [5, 1], .addEdge 0 1 [7, 7], .removeEdge 0 1,
        .updateEdgeWeight 0 1 [3, 3]]) :=
  index_consistent 4 _ (by decide)

end IndexClaims

section BatchWitnesses

theorem computeParetoFronts_exact_witness :
    (WellFormed diamond ∧ NonNegWeights diamond ∧ 0 < diamond.n_nodes ∧
      ∀ v ∈ [3], v < diamond.n_nodes) ∧
    (∃ r, diamond.computeParetoFronts [3] 0 [] (fuelBound diamond 0) = some r) ∧
    ∀ fuel r, diamond.computeParetoFronts [3] 0 [] fuel = some r →
      ∀ v ∈ [3],
        (∀ p, Walk diamond 0 p v →
          ∃ y ∈ frontAt r.2 v,
            Dominates y (pathCost diamond.n_objectives p) ∨ y = pathCost diamond.n_objectives p) ∧
        (∀ x ∈ frontAt r.2 v, ∀ p, Walk diamond 0 p v →
          ¬ Dominates (pathCost diamond.n_objectives p) x) ∧
        (∀ x ∈ frontAt r.2 v, ∃ p, Walk diamond 0 p v ∧ pathCost diamond.n_objectives p = x) :=
  ⟨⟨by unfold WellFormed; decide, by unfold NonNegWeights; decide, by decide, by decide⟩,
    computeParetoFronts_exact diamond [3] 0 [] (by unfold WellFormed; decide)
      (by unfold NonNegWeights; decide) (by decide) (by decide)⟩

theorem computeParetoFronts_antichain_witness :
    Antichain ([[2, 6], [6, 2]] : List (Cost Int)) :=
  (computeParetoFronts_antichain diamond [3] 0 [] (by unfold WellFormed; decide) (by decide)).1
    5 ([[[0, 0]], [[1, 5]], [[5, 1]], [[2, 6], [6, 2]]], []) (by decide) 3

theorem computeParetoFronts_filter_witness :
    ([[], [], [], [[2, 6], [6, 2]]] : Fronts Int).length = diamond.n_nodes ∧
    (∃ rAll, diamond.computeParetoFronts (List.range diamond.n_nodes) 0 [] 6 = some rAll ∧
      ∀ v ∈ [3], ([[], [], [], [[2, 6], [6, 2]]] : Fronts Int).getD v [] = rAll.2.getD v []) ∧
    ∀ v, v ∉ [3] → ([[], [], [], [[2, 6], [6, 2]]] : Fronts Int).getD v [] = [] :=
  computeParetoFronts_filter diamond [3] 0 [] 6 (diamond, [[], [], [], [[2, 6], [6, 2]]])
    (by unfold WellFormed; decide) (by decide) (by decide) (by rfl)

theorem computeParetoFronts_idempotent_witness :
    diamond.computeParetoFronts [3] 0 [[], [], [], [[2, 6], [6, 2]]] 6 =
      some (diamond, [[], [], [], [[2, 6], [6, 2]]]) :=
  (computeParetoFronts_idempotent diamond [3] 0 [] 6 (diamond, [[], [], [], [[2, 6], [6, 2]]])
    (by unfold WellFormed; decide) (by decide) (by rfl)).2 [[], [], [], [[2, 6], [6, 2]]]

theorem computeParetoFronts_source_witness :
    (∃ r, diamond.computeParetoFronts [0, 3] 0 [] (fuelBound diamond 0) = some r) ∧
    ∀ fuel r, diamond.computeParetoFronts [0, 3] 0 [] fuel = some r →
      frontAt r.2 0 = [zeros diamond.n_objectives] :=
  computeParetoFronts_source diamond [0, 3] 0 [] (by unfold WellFormed; decide)
    (by unfold NonNegWeights; decide) (by decide) (by decide)

end BatchWitnesses

/-! ## Claims about graph mutation -/

section MutationClaims

variable {α : Type}

theorem edgeIndex_addEdge (g : Graph α) (frm dst : Nat) (w : List α) (a b : Nat) :
    (g.addEdge frm dst w).edgeIndex a b =
      if a = frm ∧ b = dst then some (g.neighbors frm).length else g.edgeIndex a b := by
  simp [Graph.addEdge, Graph.setIndex, Graph.neighbors, Graph.adj]

theorem numEdges_addEdge (g : Graph α) (frm dst : Nat) (w : List α) :
    (g.addEdge frm dst w).numEdges = g.numEdges + 1 := rfl

/-- What `addEdge` does, whatever the length of the weight vector. -/
theorem addEdge_effect (g : Graph α) (frm dst : Nat) (w : List α)
    (hfrm : frm < g.adjList.length) :
    (g.addEdge frm dst w).neighbors frm = g.neighbors frm ++ [⟨dst, w⟩] ∧
    (g.addEdge frm dst w).edgeIndex frm dst =
      some (((g.addEdge frm dst w).neighbors frm).length - 1) ∧
    (g.addEdge frm dst w).numEdges = g.numEdges + 1 ∧
    ∀ a, a ≠ frm → (g.addEdge frm dst w).neighbors a = g.neighbors a := by
  have h1 : (g.addEdge frm dst w).neighbors frm = g.neighbors frm ++ [⟨dst, w⟩] := by
    rw [neighbors_addEdge, if_pos ⟨rfl, hfrm⟩]
  refine ⟨h1, ?_, rfl, ?_⟩
  · rw [h1, edgeIndex_addEdge, if_pos ⟨rfl, rfl⟩]
    simp
  · intro a ha
    rw [neighbors_addEdge, if_neg (fun hx => ha hx.1.symm)]

theorem neighbors_empty (n frm : Nat) :
    ((Graph.default : Graph α).setNumNodes n).neighbors frm = [] := by
  simp only [Graph.neighbors, Graph.setNumNodes, Graph.default, Graph.resizeAdj,
    List.take_nil, List.nil_append, List.length_nil, Nat.sub_zero]
  rw [List.getD_eq_getElem?_getD]
  by_cases hf : frm < n
  · simp [List.getElem?_replicate, hf]
  · simp [List.getElem?_replicate, hf]

/-- The empty graph sized with `setNumNodes(n)` has a consistent index. -/
theorem empty_consistent (n : Nat) :
    IndexConsistent ((Graph.default : Graph α).setNumNodes n) := by
  constructor
  · intro frm dst i hi
    simp [Graph.setNumNodes, Graph.default] at hi
  · intro frm e he
    rw [neighbors_empty] at he
    cases he

theorem index_consistent_oneEdge : IndexConsistent oneEdge :=
  applyAll_consistent [.addEdge 0 1 [1]] ((Graph.default : Graph Int).setNumNodes 2)
    (by decide) (empty_consistent 2)

/-- C11. `addEdge` appends.  For a graph with one adjacency list per node whose `int` counter
`numEdges` is below `INT_MAX` (so that `n_edges++` does not overflow), `from < n` and a
weight vector of length `n_objectives`: afterwards `neighbors(from)` is the previous list
followed by the edge `(to, cost)`, the index maps `(from, to)` to the last position of that
list, `numEdges` has grown by one and is still a value of `int`, and the adjacency list of
every other node is unchanged. -/
theorem addEdge_appends (g : Graph α) (frm dst : Nat) (cost : List α)
    (hsize : g.adjList.length = g.n_nodes) (hfrm : frm < g.n_nodes)
    (hlen : cost.length = g.n_objectives)
    (hmin : INT_MIN ≤ g.numEdges) (hmax : g.numEdges < INT_MAX) :
    (g.addEdge frm dst cost).neighbors frm = g.neighbors frm ++ [⟨dst, cost⟩] ∧
    (g.addEdge frm dst cost).edgeIndex frm dst =
      some (((g.addEdge frm dst cost).neighbors frm).length - 1) ∧
    (g.addEdge frm dst cost).numEdges = g.numEdges + 1 ∧
    (INT_MIN ≤ (g.addEdge frm dst cost).numEdges ∧
      (g.addEdge frm dst cost).numEdges ≤ INT_MAX) ∧
    ∀ a, a ≠ frm → (g.addEdge frm dst cost).neighbors a = g.neighbors a := by
  obtain ⟨h1, h2, h3, h4⟩ := addEdge_effect g frm dst cost (by rw [hsize]; exact hfrm)
  refine ⟨h1, h2, h3, ?_, h4⟩
  rw [h3]
  constructor <;> omega

theorem addEdge_appends_witness :
    (oneEdge.addEdge 0 1 [4]).neighbors 0 = oneEdge.neighbors 0 ++ [⟨1, [4]⟩] ∧
    (oneEdge.addEdge 0 1 [4]).edgeIndex 0 1 =
      some (((oneEdge.addEdge 0 1 [4]).neighbors 0).length - 1) ∧
    (oneEdge.addEdge 0 1 [4]).numEdges = oneEdge.numEdges + 1 ∧
    (INT_MIN ≤ (oneEdge.addEdge 0 1 [4]).numEdges ∧
      (oneEdge.addEdge 0 1 [4]).numEdges ≤ INT_MAX) ∧
    ∀ a, a ≠ 0 → (oneEdge.addEdge 0 1 [4]).neighbors a = oneEdge.neighbors a :=
  addEdge_appends oneEdge 0 1 [4] (by decide) (by decide) (by decide) (by decide) (by decide)

/-- C12, as amended.  `addEdge` does not look at the length of the weight vector: also for
`len(cost) != n_objectives` (with `from < n` and the `int` counter `numEdges` below
`INT_MAX`, so that `n_edges++` does not overflow) it appends the edge `(to, cost)` to
`neighbors(from)`, indexes it at the last position and raises `numEdges` by one, to a value
that is still a value of `int`. -/
theorem addEdge_any_dimension (g : Graph α) (frm dst : Nat) (cost : List α)
    (hsize : g.adjList.length = g.n_nodes) (hfrm : frm < g.n_nodes)
    (hlen : cost.length ≠ g.n_objectives)
    (hmin : INT_MIN ≤ g.numEdges) (hmax : g.numEdges < INT_MAX) :
    (g.addEdge frm dst cost).neighbors frm = g.neighbors frm ++ [⟨dst, cost⟩] ∧
    (g.addEdge frm dst cost).edgeIndex frm dst =
      some (((g.addEdge frm dst cost).neighbors frm).length - 1) ∧
    (g.addEdge frm dst cost).numEdges = g.numEdges + 1 ∧
    INT_MIN ≤ (g.addEdge frm dst cost).numEdges ∧
    (g.addEdge frm dst cost).numEdges ≤ INT_MAX := by
  obtain ⟨h1, h2, h3, _⟩ := addEdge_effect g frm dst cost (by rw [hsize]; exact hfrm)
  refine ⟨h1, h2, h3, ?_, ?_⟩ <;> rw [h3] <;> omega

theorem addEdge_any_dimension_witness :
    (oneEdge.addEdge 0 1 [4, 4]).neighbors 0 = oneEdge.neighbors 0 ++ [⟨1, [4, 4]⟩] ∧
    (oneEdge.addEdge 0 1 [4, 4]).edgeIndex 0 1 =
      some (((oneEdge.addEdge 0 1 [4, 4]).neighbors 0).length - 1) ∧
    (oneEdge.addEdge 0 1 [4, 4]).numEdges = oneEdge.numEdges + 1 ∧
    INT_MIN ≤ (oneEdge.addEdge 0 1 [4, 4]).numEdges ∧
    (oneEdge.addEdge 0 1 [4, 4]).numEdges ≤ INT_MAX :=
  addEdge_any_dimension oneEdge 0 1 [4, 4] (by decide) (by decide) (by decide) (by decide)
    (by decide)

/-- C12, counterexample.  On the default-constructed graph sized for two nodes
(`n_objectives = 1`), `addEdge(0, 1, [1,2])` with a weight vector of length 2 changes the
graph: the edge is stored, indexed and counted. -/
theorem addEdge_wrong_dimension_stored :
    ([1, 2] : List Int).length ≠ ((Graph.default : Graph Int).setNumNodes 2).n_objectives ∧
    (((Graph.default : Graph Int).setNumNodes 2).addEdge 0 1 [1, 2]).neighbors 0 =
      [⟨1, [1, 2]⟩] ∧
    ((Graph.default : Graph Int).setNumNodes 2).neighbors 0 = [] ∧
    (((Graph.default : Graph Int).setNumNodes 2).addEdge 0 1 [1, 2]).edgeIndex 0 1 = some 0 ∧
    (((Graph.default : Graph Int).setNumNodes 2).addEdge 0 1 [1, 2]).numEdges = 1 ∧
    ((Graph.default : Graph Int).setNumNodes 2).numEdges = 0 := by
  decide

/-- C13, as amended.  For a graph with one adjacency list per node and a pair `(from, to)`
with `from < n` for which the index holds no entry, `removeEdge(from, to)` and
`updateEdgeWeight(from, to, cost)` return the graph as it was: adjacency lists, index and
counters are unchanged (the methods are `void`, nothing is handed back to the caller). -/
theorem absent_edge_unchanged (g : Graph α) (frm dst : Nat) (cost : List α)
    (hsize : g.adjList.length = g.n_nodes) (hfrm : frm < g.n_nodes)
    (habs : g.edgeIndex frm dst = none) :
    g.removeEdge frm dst = g ∧ g.updateEdgeWeight frm dst cost = g := by
  constructor
  · unfold Graph.removeEdge; rw [habs]
  · unfold Graph.updateEdgeWeight; rw [habs]

theorem absent_edge_unchanged_witness :
    oneEdge.removeEdge 0 0 = oneEdge ∧ oneEdge.updateEdgeWeight 0 0 [9] = oneEdge :=
  absent_edge_unchanged oneEdge 0 0 [9] (by decide) (by decide) (by decide)

/-- C13, counterexample.  On the graph with the single edge `0->1 [1]`, the pair `(0,0)` is
absent and the pair `(0,1)` is present, and `updateEdgeWeight` on the absent pair has the
same outcome as the successful `updateEdgeWeight(0, 1, [1])`: the caller cannot tell the
two apart. -/
theorem absent_edge_not_signalled :
    oneEdge.edgeIndex 0 0 = none ∧ oneEdge.edgeIndex 0 1 = some 0 ∧
    oneEdge.updateEdgeWeight 0 0 [1] = oneEdge.updateEdgeWeight 0 1 [1] := by
  refine ⟨by decide, by decide, ?_⟩
  rfl

theorem length_setWeights (es : List (Edge α)) (i : Nat) (w : List α) :
    (Graph.setWeights es i w).length = es.length := by
  induction es generalizing i with
  | nil => rfl
  | cons e es ih =>
    cases i with
    | zero => simp [Graph.setWeights]
    | succ k => simp [Graph.setWeights, ih]

theorem getElem?_setWeights (es : List (Edge α)) (i j : Nat) (w : List α) :
    (Graph.setWeights es i w)[j]? =
      if j = i then (es[i]?).map (fun e => { e with weights := w }) else es[j]? := by
  induction es generalizing i j with
  | nil => simp [Graph.setWeights]
  | cons e es ih =>
    cases i with
    | zero =>
      cases j with
      | zero => simp [Graph.setWeights]
      | succ k => simp [Graph.setWeights]
    | succ i1 =>
      cases j with
      | zero => simp [Graph.setWeights]
      | succ k => simp [Graph.setWeights, ih]

theorem lt_adjList_of_neighbors {g : Graph α} {frm i : Nat}
    (h : i < (g.neighbors frm).length) : frm < g.adjList.length := by
  by_contra hge
  unfold Graph.neighbors at h
  rw [List.getD_eq_default _ _ (not_lt.mp hge)] at h
  simp at h

theorem neighbors_updateEdgeWeight (g : Graph α) (frm dst i : Nat) (w : List α)
    (hi : g.edgeIndex frm dst = some i) (a : Nat) :
    (g.updateEdgeWeight frm dst w).neighbors a =
      if frm = a ∧ frm < g.adjList.length then Graph.setWeights (g.neighbors frm) i w
      else g.neighbors a := by
  unfold Graph.updateEdgeWeight
  rw [hi]
  simp only [Graph.neighbors, Graph.adj]
  rw [getD_set_nil]

/-- C15. `updateEdgeWeight` changes only the addressed edge.  For an index-consistent graph
and a pair `(from, to)` that the index maps to position `i`: afterwards the edge at position
`i` of the adjacency list of `from` has target `to` and weights `cost`, every other position
of every adjacency list holds what it held, no list changes its length, and the index,
`numNodes` and `numEdges` are unchanged. -/
theorem updateEdgeWeight_frame (g : Graph α) (frm dst i : Nat) (cost : List α)
    (hc : IndexConsistent g) (hi : g.edgeIndex frm dst = some i) :
    ((g.updateEdgeWeight frm dst cost).neighbors frm)[i]? = some ⟨dst, cost⟩ ∧
    (∀ a j, (a ≠ frm ∨ j ≠ i) →
      ((g.updateEdgeWeight frm dst cost).neighbors a)[j]? = (g.neighbors a)[j]?) ∧
    (∀ a, ((g.updateEdgeWeight frm dst cost).neighbors a).length = (g.neighbors a).length) ∧
    (g.updateEdgeWeight frm dst cost).edgeIndex = g.edgeIndex ∧
    (g.updateEdgeWeight frm dst cost).numNodes = g.numNodes ∧
    (g.updateEdgeWeight frm dst cost).numEdges = g.numEdges := by
  obtain ⟨hlt, htgt⟩ := hc.1 frm dst i hi
  have hfrm := lt_adjList_of_neighbors hlt
  have hn := neighbors_updateEdgeWeight g frm dst i cost hi
  have hflds : (g.updateEdgeWeight frm dst cost).edgeIndex = g.edgeIndex ∧
      (g.updateEdgeWeight frm dst cost).numNodes = g.numNodes ∧
      (g.updateEdgeWeight frm dst cost).numEdges = g.numEdges := by
    unfold Graph.updateEdgeWeight
    rw [hi]
    exact ⟨rfl, rfl, rfl⟩
  refine ⟨?_, ?_, ?_, hflds⟩
  · rw [hn, if_pos ⟨rfl, hfrm⟩, getElem?_setWeights, if_pos rfl]
    obtain ⟨e, he, het⟩ := Option.map_eq_some'.mp htgt
    rw [he]
    simp only [Option.map_some', Option.some.injEq]
    rw [← het]
  · intro a j hne
    rw [hn]
    by_cases ha : frm = a
    · subst ha
      rw [if_pos ⟨rfl, hfrm⟩, getElem?_setWeights]
      rcases hne with h1 | h1
      · exact absurd rfl h1
      · rw [if_neg h1]
    · rw [if_neg (fun hx => ha hx.1)]
  · intro a
    rw [hn]
    split
    · rename_i hx
      rw [length_setWeights, hx.1]
    · rfl

theorem updateEdgeWeight_frame_witness :
    ((oneEdge.updateEdgeWeight 0 1 [8]).neighbors 0)[0]? = some ⟨1, [8]⟩ ∧
    (∀ a j, (a ≠ 0 ∨ j ≠ 0) →
      ((oneEdge.updateEdgeWeight 0 1 [8]).neighbors a)[j]? = (oneEdge.neighbors a)[j]?) ∧
    (∀ a, ((oneEdge.updateEdgeWeight 0 1 [8]).neighbors a).length =
      (oneEdge.neighbors a).length) ∧
    (oneEdge.updateEdgeWeight 0 1 [8]).edgeIndex = oneEdge.edgeIndex ∧
    (oneEdge.updateEdgeWeight 0 1 [8]).numNodes = oneEdge.numNodes ∧
    (oneEdge.updateEdgeWeight 0 1 [8]).numEdges = oneEdge.numEdges :=
  updateEdgeWeight_frame oneEdge 0 1 0 [8]
    (index_consistent_oneEdge) (by decide)

theorem neighbors_removeEdge (g : Graph α) (frm dst j : Nat)
    (hj : g.edgeIndex frm dst = some j) (hfrm : frm < g.adjList.length) (a : Nat) :
    (g.removeEdge frm dst).neighbors a =
      if frm = a then (g.neighbors frm).eraseIdx j else g.neighbors a := by
  unfold Graph.removeEdge
  rw [hj]
  simp only [Graph.neighbors, Graph.adj]
  rw [getD_set_nil]
  by_cases ha : frm = a
  · rw [if_pos ⟨ha, hfrm⟩, if_pos ha]
  · rw [if_neg (fun hx => ha hx.1), if_neg ha]

theorem edgeIndex_removeEdge (g : Graph α) (frm dst j : Nat)
    (hj : g.edgeIndex frm dst = some j) :
    (g.removeEdge frm dst).edgeIndex =
      Graph.rebuildIndex frm ((g.neighbors frm).eraseIdx j) 0
        (Graph.eraseIndex g.edgeIndex frm dst) := by
  unfold Graph.removeEdge
  rw [hj]
  rfl

theorem countP_eraseIdx {β : Type} (p : β → Bool) (l : List β) (j : Nat) (e : β)
    (he : l[j]? = some e) (hp : p e = true) :
    (l.eraseIdx j).countP p + 1 = l.countP p := by
  induction l generalizing j with
  | nil => simp at he
  | cons x xs ih =>
    cases j with
    | zero =>
      have hx : x = e := by simpa using he
      rw [List.eraseIdx_cons_zero, hx, List.countP_cons_of_pos _ _ hp]
    | succ k =>
      have hk : xs[k]? = some e := by simpa using he
      rw [List.eraseIdx_cons_succ]
      by_cases hx : p x = true
      · rw [List.countP_cons_of_pos _ _ hx, List.countP_cons_of_pos _ _ hx, ← ih k hk]
      · rw [List.countP_cons_of_neg _ _ hx, List.countP_cons_of_neg _ _ hx, ih k hk]

/-- C14, as amended.  For a graph reached from the empty graph sized with `setNumNodes(n)` by
`addEdge`/`removeEdge`/`updateEdgeWeight` calls with `from < n`, and a pair `(from, to)` that
the index maps to position `j`: `removeEdge(from, to)` erases position `j` of
`neighbors(from)`, which held an edge with target `to`, so the list holds one edge with
target `to` fewer.  When the list held exactly one edge with target `to`, afterwards no edge
of `neighbors(from)` has target `to`, the index holds no entry for `(from, to)`, and a
following `removeEdge` or `updateEdgeWeight` on the pair leaves the graph as it is. -/
theorem removeEdge_removes_one (n : Nat) (ms : List (Mutation α))
    (hm : ∀ m ∈ ms, m.source < n) (frm dst j : Nat) (cost : List α)
    (hj : (((Graph.default : Graph α).setNumNodes n).applyAll ms).edgeIndex frm dst = some j) :
    (∃ e, ((((Graph.default : Graph α).setNumNodes n).applyAll ms).neighbors frm)[j]? = some e ∧
      e.to_ = dst) ∧
    ((((Graph.default : Graph α).setNumNodes n).applyAll ms).removeEdge frm dst).neighbors frm =
      ((((Graph.default : Graph α).setNumNodes n).applyAll ms).neighbors frm).eraseIdx j ∧
    edgesTo (((((Graph.default : Graph α).setNumNodes n).applyAll ms).removeEdge
        frm dst).neighbors frm) dst + 1 =
      edgesTo ((((Graph.default : Graph α).setNumNodes n).applyAll ms).neighbors frm) dst ∧
    (edgesTo ((((Graph.default : Graph α).setNumNodes n).applyAll ms).neighbors frm) dst = 1 →
      (∀ e ∈ ((((Graph.default : Graph α).setNumNodes n).applyAll ms).removeEdge
          frm dst).neighbors frm, e.to_ ≠ dst) ∧
      ((((Graph.default : Graph α).setNumNodes n).applyAll ms).removeEdge
          frm dst).edgeIndex frm dst = none ∧
      ((((Graph.default : Graph α).setNumNodes n).applyAll ms).removeEdge
          frm dst).removeEdge frm dst =
        (((Graph.default : Graph α).setNumNodes n).applyAll ms).removeEdge frm dst ∧
      ((((Graph.default : Graph α).setNumNodes n).applyAll ms).removeEdge
          frm dst).updateEdgeWeight frm dst cost =
        (((Graph.default : Graph α).setNumNodes n).applyAll ms).removeEdge frm dst) := by
  have hc : IndexConsistent (((Graph.default : Graph α).setNumNodes n).applyAll ms) := by
    apply applyAll_consistent
    · rw [setNumNodes_default_length]; exact hm
    · exact empty_consistent n
  generalize ((Graph.default : Graph α).setNumNodes n).applyAll ms = g at hj hc ⊢
  obtain ⟨hlt, htgt⟩ := hc.1 frm dst j hj
  have hfrm := lt_adjList_of_neighbors hlt
  obtain ⟨e, he, het⟩ := Option.map_eq_some'.mp htgt
  have hn : (g.removeEdge frm dst).neighbors frm = (g.neighbors frm).eraseIdx j := by
    rw [neighbors_removeEdge g frm dst j hj hfrm, if_pos rfl]
  have hcount : edgesTo ((g.removeEdge frm dst).neighbors frm) dst + 1 =
      edgesTo (g.neighbors frm) dst := by
    rw [hn]
    exact countP_eraseIdx _ _ j e he (by simpa using het)
  refine ⟨⟨e, he, het⟩, hn, hcount, ?_⟩
  intro hone
  have hzero : edgesTo ((g.removeEdge frm dst).neighbors frm) dst = 0 := by omega
  have hnone : ∀ e1 ∈ (g.removeEdge frm dst).neighbors frm, e1.to_ ≠ dst := by
    intro e1 he1 hd
    unfold edgesTo at hzero
    rw [List.countP_eq_zero] at hzero
    exact hzero e1 he1 (by simpa using hd)
  have hidx : (g.removeEdge frm dst).edgeIndex frm dst = none := by
    rw [edgeIndex_removeEdge g frm dst j hj]
    cases hr : Graph.rebuildIndex frm ((g.neighbors frm).eraseIdx j) 0
        (Graph.eraseIndex g.edgeIndex frm dst) frm dst with
    | none => rfl
    | some i =>
      exfalso
      rcases rebuildIndex_some frm _ 0 _ dst i hr with ⟨h1, _⟩ | ⟨_, h2⟩
      · simp [Graph.eraseIndex] at h1
      · obtain ⟨e1, he1, het1⟩ := Option.map_eq_some'.mp h2
        rw [← hn] at he1
        exact hnone e1 (List.getElem?_mem he1) het1
  refine ⟨hnone, hidx, ?_, ?_⟩
  · unfold Graph.removeEdge at hidx ⊢
    rw [hj] at hidx ⊢
    simp only at hidx ⊢
    rw [hidx]
  · unfold Graph.updateEdgeWeight
    rw [hidx]

theorem removeEdge_removes_one_witness :
    (∃ e, ((((Graph.default : Graph Int).setNumNodes 2).applyAll
        [.addEdge 0 1 [1]]).neighbors 0)[0]? = some e ∧ e.to_ = 1) ∧
    ((((Graph.default : Graph Int).setNumNodes 2).applyAll
        [.addEdge 0 1 [1]]).removeEdge 0 1).neighbors 0 =
      ((((Graph.default : Graph Int).setNumNodes 2).applyAll
        [.addEdge 0 1 [1]]).neighbors 0).eraseIdx 0 ∧
    edgesTo (((((Graph.default : Graph Int).setNumNodes 2).applyAll
        [.addEdge 0 1 [1]]).removeEdge 0 1).neighbors 0) 1 + 1 =
      edgesTo ((((Graph.default : Graph Int).setNumNodes 2).applyAll
        [.addEdge 0 1 [1]]).neighbors 0) 1 ∧
    (edgesTo ((((Graph.default : Graph Int).setNumNodes 2).applyAll
        [.addEdge 0 1 [1]]).neighbors 0) 1 = 1 →
      (∀ e ∈ ((((Graph.default : Graph Int).setNumNodes 2).applyAll
          [.addEdge 0 1 [1]]).removeEdge 0 1).neighbors 0, e.to_ ≠ 1) ∧
      ((((Graph.default : Graph Int).setNumNodes 2).applyAll
          [.addEdge 0 1 [1]]).removeEdge 0 1).edgeIndex 0 1 = none ∧
      ((((Graph.default : Graph Int).setNumNodes 2).applyAll
          [.addEdge 0 1 [1]]).removeEdge 0 1).removeEdge 0 1 =
        (((Graph.default : Graph Int).setNumNodes 2).applyAll
          [.addEdge 0 1 [1]]).removeEdge 0 1 ∧
      ((((Graph.default : Graph Int).setNumNodes 2).applyAll
          [.addEdge 0 1 [1]]).removeEdge 0 1).updateEdgeWeight 0 1 [5] =
        (((Graph.default : Graph Int).setNumNodes 2).applyAll
          [.addEdge 0 1 [1]]).removeEdge 0 1) :=
  removeEdge_removes_one 2 [.addEdge 0 1 [1]] (by decide) 0 1 0 [5] (by decide)

/-- C14, counterexample.  After `addEdge(0, 1, [1])` and `addEdge(0, 1, [2])` on the empty
graph sized for two nodes the pair `(0,1)` is in the index; after `removeEdge(0, 1)` the list
`neighbors(0)` still holds an edge with target 1 and the index still holds an entry for
`(0,1)`. -/
theorem removeEdge_duplicate_remains :
    (((Graph.default : Graph Int).setNumNodes 2).applyAll
        [.addEdge 0 1 [1], .addEdge 0 1 [2]]).edgeIndex 0 1 = some 1 ∧
    ((((Graph.default : Graph Int).setNumNodes 2).applyAll
        [.addEdge 0 1 [1], .addEdge 0 1 [2]]).removeEdge 0 1).neighbors 0 = [⟨1, [1]⟩] ∧
    ((((Graph.default : Graph Int).setNumNodes 2).applyAll
        [.addEdge 0 1 [1], .addEdge 0 1 [2]]).removeEdge 0 1).edgeIndex 0 1 = some 0 := by
  decide

theorem sum_lengths_set {β : Type} (l : List (List β)) (frm : Nat) (x : List β)
    (hfrm : frm < l.length) :
    ((l.set frm x).map List.length).sum + (l.getD frm []).length =
      (l.map List.length).sum + x.length := by
  induction l generalizing frm with
  | nil => simp at hfrm
  | cons y ys ih =>
    cases frm with
    | zero => simp; omega
    | succ k =>
      have hk : k < ys.length := by simpa using hfrm
      have := ih k hk
      simp only [List.set_cons_succ, List.map_cons, List.sum_cons, List.getD_cons_succ]
      omega

theorem storedEdges_eq (g : Graph α) (hsize : g.adjList.length = g.n_nodes) :
    g.storedEdges = (g.adjList.map List.length).sum := by
  unfold Graph.storedEdges Graph.neighbors
  congr 1
  apply List.ext_getElem
  · simp [hsize]
  · intro i h1 h2
    have hi : i < g.adjList.length := by simpa using h2
    simp [List.getElem?_eq_getElem hi]

theorem applyMutation_n_nodes (g : Graph α) (m : Mutation α) :
    (g.applyMutation m).n_nodes = g.n_nodes := by
  cases m with
  | addEdge frm dst w => rfl
  | removeEdge frm dst =>
    simp only [Graph.applyMutation, Graph.removeEdge]
    split <;> rfl
  | updateEdgeWeight frm dst w =>
    simp only [Graph.applyMutation, Graph.updateEdgeWeight]
    split <;> rfl

/-- One mutation keeps the counter equal to the number of stored edges, and raises it by at
most one. -/
theorem applyMutation_count (g : Graph α) (m : Mutation α)
    (hm : m.source < g.adjList.length) (hc : IndexConsistent g)
    (h : g.n_edges = ((g.adjList.map List.length).sum : Nat)) :
    (g.applyMutation m).n_edges = (((g.applyMutation m).adjList.map List.length).sum : Nat) ∧
      (g.applyMutation m).n_edges ≤ g.n_edges + 1 := by
  cases m with
  | addEdge frm dst w =>
    have hs := sum_lengths_set g.adjList frm (g.adj frm ++ [⟨dst, w⟩]) hm
    simp only [List.length_append, List.length_singleton, Graph.adj] at hs
    simp only [Graph.applyMutation, Graph.addEdge, Graph.adj]
    generalize (List.map List.length g.adjList).sum = T at h hs
    generalize (List.map List.length (g.adjList.set frm _)).sum = T1 at hs ⊢
    constructor
    · omega
    · omega
  | removeEdge frm dst =>
    simp only [Graph.applyMutation, Graph.removeEdge]
    cases hj : g.edgeIndex frm dst with
    | none => exact ⟨h, by simp⟩
    | some j =>
      simp only
      have hlt : j < (g.adj frm).length := (hc.1 frm dst j hj).1
      have hs := sum_lengths_set g.adjList frm ((g.adj frm).eraseIdx j) hm
      rw [List.length_eraseIdx_of_lt hlt] at hs
      simp only [Graph.adj] at hs hlt ⊢
      generalize (List.map List.length g.adjList).sum = T at h hs
      generalize (List.map List.length (g.adjList.set frm _)).sum = T1 at hs ⊢
      constructor
      · omega
      · omega
  | updateEdgeWeight frm dst w =>
    simp only [Graph.applyMutation, Graph.updateEdgeWeight]
    cases hj : g.edgeIndex frm dst with
    | none => exact ⟨h, by simp⟩
    | some j =>
      simp only
      have hs := sum_lengths_set g.adjList frm (Graph.setWeights (g.adj frm) j w) hm
      rw [length_setWeights] at hs
      simp only [Graph.adj] at hs ⊢
      generalize (List.map List.length g.adjList).sum = T at h hs
      generalize (List.map List.length (g.adjList.set frm _)).sum = T1 at hs ⊢
      constructor
      · omega
      · omega

theorem applyAll_count (ms : List (Mutation α)) (g : Graph α)
    (hm : ∀ m ∈ ms, m.source < g.adjList.length) (hc : IndexConsistent g)
    (h : g.n_edges = ((g.adjList.map List.length).sum : Nat)) :
    (g.applyAll ms).n_edges = (((g.applyAll ms).adjList.map List.length).sum : Nat) ∧
      (g.applyAll ms).n_edges ≤ g.n_edges + ms.length ∧
      (g.applyAll ms).adjList.length = g.adjList.length ∧
      (g.applyAll ms).n_nodes = g.n_nodes := by
  induction ms generalizing g with
  | nil => exact ⟨h, by simp [Graph.applyAll], rfl, rfl⟩
  | cons m ms ih =>
    have h1 := applyMutation_count g m (hm m (List.mem_cons_self _ _)) hc h
    have h2 := ih (g.applyMutation m)
      (fun m1 hm1 => by rw [applyMutation_length]; exact hm m1 (List.mem_cons_of_mem _ hm1))
      (applyMutation_consistent g m (hm m (List.mem_cons_self _ _)) hc) h1.1
    unfold Graph.applyAll at h2 ⊢
    rw [List.foldl_cons]
    refine ⟨h2.1, ?_, ?_, ?_⟩
    · have := h2.2.1
      have := h1.2
      simp only [List.length_cons]
      push_cast
      omega
    · rw [h2.2.2.1, applyMutation_length]
    · rw [h2.2.2.2, applyMutation_n_nodes]

/-- C20. Edge count invariant.  Starting from a default-constructed graph sized once with
`setNumNodes(n)`, after any finite sequence of `addEdge`, `removeEdge` and
`updateEdgeWeight` calls with `from < n` (the same pair may be added more than once),
`numEdges()` equals the sum of the lengths of `neighbors(v)` over all nodes `v`; it is at most
the number of calls, so the `int` counter has not overflowed when fewer than `2^31` calls
were made. -/
theorem numEdges_eq_storedEdges (n : Nat) (ms : List (Mutation α))
    (hm : ∀ m ∈ ms, m.source < n) :
    (((Graph.default : Graph α).setNumNodes n).applyAll ms).numEdges =
      ((((Graph.default : Graph α).setNumNodes n).applyAll ms).storedEdges : Nat) ∧
    (((Graph.default : Graph α).setNumNodes n).applyAll ms).numEdges ≤ ms.length := by
  have h0 : ((Graph.default : Graph α).setNumNodes n).n_edges =
      ((((Graph.default : Graph α).setNumNodes n).adjList.map List.length).sum : Nat) := by
    simp [Graph.setNumNodes, Graph.default, Graph.resizeAdj]
  obtain ⟨h1, h2, h3, h4⟩ := applyAll_count ms ((Graph.default : Graph α).setNumNodes n)
    (by rw [setNumNodes_default_length]; exact hm) (empty_consistent n) h0
  have hsize : (((Graph.default : Graph α).setNumNodes n).applyAll ms).adjList.length =
      (((Graph.default : Graph α).setNumNodes n).applyAll ms).n_nodes := by
    rw [h3, h4, setNumNodes_default_length]
    rfl
  constructor
  · rw [storedEdges_eq _ hsize]
    exact h1
  · have h5 : ((Graph.default : Graph α).setNumNodes n).n_edges = 0 := rfl
    rw [h5] at h2
    simpa [Graph.numEdges] using h2

theorem numEdges_eq_storedEdges_witness :
    (((Graph.default : Graph Int).setNumNodes 3).applyAll
        [.addEdge 0 1 [1], .addEdge 0 1 [2], .addEdge 2 0 [7], .removeEdge 0 1,
          .updateEdgeWeight 0 1 [3], .removeEdge 1 2]).numEdges =
      ((((Graph.default : Graph Int).setNumNodes 3).applyAll
        [.addEdge 0 1 [1], .addEdge 0 1 [2], .addEdge 2 0 [7], .removeEdge 0 1,
          .updateEdgeWeight 0 1 [3], .removeEdge 1 2]).storedEdges : Nat) ∧
    (((Graph.default : Graph Int).setNumNodes 3).applyAll
        [.addEdge 0 1 [1], .addEdge 0 1 [2], .addEdge 2 0 [7], .removeEdge 0 1,
          .updateEdgeWeight 0 1 [3], .removeEdge 1 2]).numEdges ≤
      ([.addEdge 0 1 [1], .addEdge 0 1 [2], .addEdge 2 0 [7], .removeEdge 0 1,
          .updateEdgeWeight 0 1 [3], .removeEdge 1 2] : List (Mutation Int)).length :=
  numEdges_eq_storedEdges 3 _ (by decide)

end MutationClaims

/-! ## Soundness of labels for any addition -/

section AnyAddition

variable {α : Type} [LinearOrder α] [Add α] [Zero α]

theorem length_sumAlong (m : Nat) (p : List (Edge α)) : (sumAlong m p).length = m := by
  simp [sumAlong]

theorem sumAlong_nil (m : Nat) : sumAlong m ([] : List (Edge α)) = zeros m := by
  unfold sumAlong zeros
  rw [List.eq_replicate_iff]
  simp

/-- Extending a sequence of edges by one edge adds the weights of that edge to the accumulated
cost, as the inner loop of the engine does. -/
theorem sumAlong_snoc (m : Nat) (p : List (Edge α)) (e : Edge α) :
    sumAlong m (p ++ [e]) = newCost m (sumAlong m p) e.weights := by
  unfold newCost
  apply List.ext_getElem
  · simp [sumAlong]
  · intro i h1 h2
    have hi : i < m := by simpa [sumAlong] using h1
    simp [sumAlong, List.getElem?_range hi, List.foldl_append]

theorem sumAlong_one (p : List (Edge α)) :
    sumAlong 1 p = [(p.map (fun e => e.weights.getD 0 0)).foldl (fun acc w => acc + w) 0] := by
  unfold sumAlong
  rw [show List.range 1 = [0] from rfl]
  rfl

theorem relax_front_origin (m : Nat) (cost : Cost α) (st : Fronts α × Frontier α)
    (e : Edge α) (w : Nat) (x : Cost α) (hx : x ∈ frontAt (relax m cost st e).1 w) :
    x ∈ frontAt st.1 w ∨ (x = newCost m cost e.weights ∧ w = e.to_) := by
  unfold relax at hx
  simp only at hx
  split at hx
  · exact Or.inl hx
  · simp only [frontAt] at hx ⊢
    rw [getD_set_nil] at hx
    split at hx
    · rename_i hc
      rcases List.mem_append.mp hx with h1 | h1
      · left
        rw [← hc.1]
        exact (List.mem_filter.mp h1).1
      · right
        exact ⟨by simpa using h1, hc.1.symm⟩
    · exact Or.inl hx

theorem relax_pq_origin (m : Nat) (cost : Cost α) (st : Fronts α × Frontier α)
    (e : Edge α) (q : Cost α × Nat) (hq : q ∈ (relax m cost st e).2) :
    q ∈ st.2 ∨ q = (newCost m cost e.weights, e.to_) := by
  unfold relax at hq
  simp only at hq
  split at hq
  · exact Or.inl hq
  · rcases List.mem_cons.mp hq with h1 | h1
    · exact Or.inr h1
    · exact Or.inl h1

theorem minEntry_origin (x : Cost α × Nat) (xs : Frontier α) : minEntry x xs ∈ x :: xs := by
  induction xs generalizing x with
  | nil => simp [minEntry]
  | cons y ys ih =>
    unfold minEntry
    rcases List.mem_cons.mp (ih (if entryLt y x then y else x)) with h1 | h1
    · rw [h1]
      by_cases hc : entryLt y x = true
      · simp [hc]
      · simp [hc]
    · exact List.mem_cons_of_mem _ (List.mem_cons_of_mem _ h1)

theorem pqPop_origin (pq : Frontier α) (x : Cost α × Nat) (rest : Frontier α)
    (h : pqPop pq = some (x, rest)) : x ∈ pq ∧ ∀ q ∈ rest, q ∈ pq := by
  cases pq with
  | nil => simp [pqPop] at h
  | cons y ys =>
    simp only [pqPop, Option.some.injEq, Prod.mk.injEq] at h
    obtain ⟨h1, h2⟩ := h
    constructor
    · rw [← h1]; exact minEntry_origin y ys
    · intro q hq
      rw [← h2] at hq
      exact List.mem_of_mem_erase hq

theorem relax_accumulated (g : Graph α) (s u : Nat) (cost : Cost α)
    (st : Fronts α × Frontier α) (e : Edge α)
    (hcost : ∃ p, Walk g s p u ∧ sumAlong g.n_objectives p = cost) (he : e ∈ g.adj u)
    (h : Accumulated g s st) : Accumulated g s (relax g.n_objectives cost st e) := by
  obtain ⟨p, hp, hc⟩ := hcost
  have hnew : ∃ p1, Walk g s p1 e.to_ ∧
      sumAlong g.n_objectives p1 = newCost g.n_objectives cost e.weights :=
    ⟨p ++ [e], Walk.snoc hp he, by rw [sumAlong_snoc, hc]⟩
  constructor
  · intro v x hx
    rcases relax_front_origin _ cost st e v x hx with h1 | ⟨h1, h2⟩
    · exact h.1 v x h1
    · rw [h1, h2]; exact hnew
  · intro q hq
    rcases relax_pq_origin _ cost st e q hq with h1 | h1
    · exact h.2 q h1
    · rw [h1]; exact hnew

theorem step_accumulated (g : Graph α) (s : Nat) (st st1 : Fronts α × Frontier α)
    (hs : step g st = some st1) (h : Accumulated g s st) : Accumulated g s st1 := by
  unfold step at hs
  cases hp : pqPop st.2 with
  | none => rw [hp] at hs; cases hs
  | some r =>
    obtain ⟨⟨cost, u⟩, rest⟩ := r
    rw [hp] at hs
    simp only [Option.some.injEq] at hs
    obtain ⟨hx, hrest⟩ := pqPop_origin st.2 (cost, u) rest hp
    have h0 : Accumulated g s (st.1, rest) := ⟨h.1, fun q hq => h.2 q (hrest q hq)⟩
    rw [← hs]
    exact foldl_preserves (Accumulated g s) (relax g.n_objectives cost) (g.adj u)
      (fun st2 e he h2 => relax_accumulated g s u cost st2 e (h.2 (cost, u) hx) he h2) _ h0

theorem init_accumulated (g : Graph α) (s : Nat) : Accumulated g s (initState g s) := by
  constructor
  · intro v x hx
    simp only [initState, frontAt, Graph.numNodes] at hx
    rw [getD_set_nil] at hx
    have hrep : ∀ w, (List.replicate g.n_nodes ([] : List (Cost α))).getD w [] = [] := by
      intro w
      rw [List.getD_eq_getElem?_getD]
      by_cases hw : w < g.n_nodes
      · simp [List.getElem?_replicate, hw]
      · simp [List.getElem?_replicate, hw]
    split at hx
    · rename_i hc
      rw [hrep] at hx
      have hx2 : x = zeros g.n_objectives := by simpa using hx
      rw [hx2, ← hc.1]
      exact ⟨[], Walk.nil, sumAlong_nil _⟩
    · rw [hrep] at hx
      cases hx
  · intro q hq
    have : q = (zeros g.n_objectives, s) := by simpa [initState, pqPush] using hq
    rw [this]
    exact ⟨[], Walk.nil, sumAlong_nil _⟩

theorem mainLoop_accumulated (g : Graph α) (s : Nat) :
    ∀ (fuel : Nat) (st : Fronts α × Frontier α) (fr : Fronts α),
      mainLoop g fuel st = some fr → Accumulated g s st →
      ∀ v, ∀ x ∈ frontAt fr v, ∃ p, Walk g s p v ∧ sumAlong g.n_objectives p = x := by
  intro fuel
  induction fuel with
  | zero => intro st fr h; simp [mainLoop] at h
  | succ k ih =>
    intro st fr h hacc
    simp only [mainLoop] at h
    cases hs : step g st with
    | none =>
      rw [hs] at h
      simp only [Option.some.injEq] at h
      rw [← h]
      exact hacc.1
    | some st1 =>
      rw [hs] at h
      exact ih st1 fr h (step_accumulated g s st st1 hs hacc)

/-- Every label of a returned front is a label of the internal front of the same node. -/
theorem result_origin (g : Graph α) (owned : List Nat) (s : Nat) (out : Fronts α) (fuel : Nat)
    (r : Graph α × Fronts α) (h : g.computeParetoFronts owned s out fuel = some r) (v : Nat)
    (x : Cost α) (hx : x ∈ frontAt r.2 v) :
    ∃ fr, mainLoop g fuel (initState g s) = some fr ∧ x ∈ frontAt fr v := by
  unfold Graph.computeParetoFronts at h
  cases hm : mainLoop g fuel (initState g s) with
  | none => rw [hm] at h; cases h
  | some fr =>
    rw [hm] at h
    simp only [Option.some.injEq] at h
    refine ⟨fr, rfl, ?_⟩
    rw [← h] at hx
    simp only [vecAssign] at hx
    have hgen : ∀ (l : List Nat) (acc : Fronts α), x ∈ frontAt (copyOwned fr l acc) v →
        x ∈ frontAt fr v ∨ x ∈ frontAt acc v := by
      intro l
      induction l with
      | nil => intro acc hacc; exact Or.inr hacc
      | cons a as ih =>
        intro acc hacc
        unfold copyOwned at hacc ih
        rw [List.foldl_cons] at hacc
        rcases ih _ hacc with h1 | h1
        · exact Or.inl h1
        · simp only [frontAt] at h1 ⊢
          rw [getD_set_nil] at h1
          split at h1
          · rename_i hc
            left
            rw [← hc.1]
            exact h1
          · exact Or.inr h1
    rcases hgen owned _ hx with h1 | h1
    · exact h1
    · exfalso
      simp only [frontAt] at h1
      rw [List.getD_eq_getElem?_getD] at h1
      by_cases hv : v < g.numNodes
      · simp [List.getElem?_replicate, hv] at h1
      · simp [List.getElem?_replicate, hv] at h1

/-- C2. Soundness of labels.  Whenever the main loop stops, every label of every internal
front, and so every label of every returned front, is the component-wise sum of the edge
weights along a walk from the source to that node, accumulated from the zero vector edge by
edge in walk order with the addition of the values.  No law of the addition is used, so the
statement holds for the rounded addition of doubles as for an exact one.  The zero vector is
the cost of the empty walk, which is a walk from the source to itself. -/
theorem computeParetoFronts_sound (g : Graph α) (owned : List Nat) (s : Nat) (out : Fronts α)
    (hwf : WellFormed g) (hs : s < g.n_nodes) :
    (∀ fuel fr, mainLoop g fuel (initState g s) = some fr →
      ∀ v, ∀ x ∈ frontAt fr v, ∃ p, Walk g s p v ∧ sumAlong g.n_objectives p = x) ∧
    (∀ fuel r, g.computeParetoFronts owned s out fuel = some r →
      ∀ v, ∀ x ∈ frontAt r.2 v, ∃ p, Walk g s p v ∧ sumAlong g.n_objectives p = x) ∧
    Walk g s [] s ∧ sumAlong g.n_objectives ([] : List (Edge α)) = zeros g.n_objectives := by
  refine ⟨?_, ?_, Walk.nil, sumAlong_nil _⟩
  · intro fuel fr hfr
    exact mainLoop_accumulated g s fuel _ fr hfr (init_accumulated g s)
  · intro fuel r hr v x hx
    obtain ⟨fr, hfr, hxf⟩ := result_origin g owned s out fuel r hr v x hx
    exact mainLoop_accumulated g s fuel _ fr hfr (init_accumulated g s) v x hxf

theorem computeParetoFronts_sound_witness :
    ∃ p, Walk diamond 0 p 3 ∧ sumAlong diamond.n_objectives p = [6, 2] :=
  (computeParetoFronts_sound diamond [3] 0 [] (by unfold WellFormed; decide) (by decide)).1
    6 _ mainLoop_diamond 3 [6, 2] (by decide)

end AnyAddition

/-! ## Claims about the objective count and the incremental loop -/

section ObjectiveCount

variable {α : Type} [LinearOrder α] [Add α] [Zero α]

theorem applyBuild_n_objectives (g : Graph α) (c : BuildCall α) :
    (g.applyBuild c).n_objectives = g.n_objectives := by
  cases c with
  | setNumNodes n => rfl
  | mutate m =>
    cases m with
    | addEdge frm dst w => rfl
    | removeEdge frm dst =>
      simp only [Graph.applyBuild, Graph.applyMutation, Graph.removeEdge]
      split <;> rfl
    | updateEdgeWeight frm dst w =>
      simp only [Graph.applyBuild, Graph.applyMutation, Graph.updateEdgeWeight]
      split <;> rfl

theorem applyBuilds_n_objectives (cs : List (BuildCall α)) (g : Graph α) :
    (g.applyBuilds cs).n_objectives = g.n_objectives := by
  induction cs generalizing g with
  | nil => rfl
  | cons c cs ih =>
    unfold Graph.applyBuilds
    rw [List.foldl_cons]
    exact (ih (g.applyBuild c)).trans (applyBuild_n_objectives g c)

/-- C19. The objective count is not derived from the edges.  A graph built from the default
constructor with `setNumNodes`, `addEdge`, `removeEdge` and `updateEdgeWeight` calls has
`n_objectives = 1`; every label `computeParetoFronts` returns on it has length 1 and is the
sum of the first weight components `weights[0]` along a walk from the source, accumulated
from zero edge by edge with the addition of the values (of which no law is used, so it may
round as the addition of doubles does), whatever the length of the weight vectors; and on
every graph every returned label has length `n_objectives`. -/
theorem labels_have_objective_count (cs : List (BuildCall α)) :
    ((Graph.default : Graph α).applyBuilds cs).n_objectives = 1 ∧
    (∀ owned s out fuel r,
      ((Graph.default : Graph α).applyBuilds cs).computeParetoFronts owned s out fuel = some r →
      ∀ v, ∀ x ∈ frontAt r.2 v, x.length = 1 ∧
        ∃ p, Walk ((Graph.default : Graph α).applyBuilds cs) s p v ∧
          x = [(p.map (fun e => e.weights.getD 0 0)).foldl (fun acc w => acc + w) 0]) ∧
    (∀ (g : Graph α) owned s out fuel r, g.computeParetoFronts owned s out fuel = some r →
      ∀ v, ∀ x ∈ frontAt r.2 v, x.length = g.n_objectives) := by
  have h1 : ((Graph.default : Graph α).applyBuilds cs).n_objectives = 1 :=
    applyBuilds_n_objectives cs _
  have hgen : ∀ (g : Graph α) owned s out fuel r,
      g.computeParetoFronts owned s out fuel = some r →
      ∀ v, ∀ x ∈ frontAt r.2 v, ∃ p, Walk g s p v ∧ sumAlong g.n_objectives p = x := by
    intro g owned s out fuel r hr v x hx
    obtain ⟨fr, hfr, hxf⟩ := result_origin g owned s out fuel r hr v x hx
    exact mainLoop_accumulated g s fuel _ fr hfr (init_accumulated g s) v x hxf
  refine ⟨h1, ?_, ?_⟩
  · intro owned s out fuel r hr v x hx
    obtain ⟨p, hp, hc⟩ := hgen _ owned s out fuel r hr v x hx
    rw [h1, sumAlong_one] at hc
    refine ⟨by rw [← hc]; rfl, p, hp, hc.symm⟩
  · intro g owned s out fuel r hr v x hx
    obtain ⟨p, _, hc⟩ := hgen g owned s out fuel r hr v x hx
    rw [← hc]
    exact length_sumAlong _ _

/-- The scenario edges added to a default-constructed graph sized for four nodes: the labels
have one component, and node 3 gets the single label `[2]`. -/
theorem labels_have_objective_count_witness :
    (((Graph.default : Graph Int).applyBuilds
        [.setNumNodes 4, .mutate (.addEdge 0 1 [1, 5]), .mutate (.addEdge 0 2 [5, 1]),
          .mutate (.addEdge 1 3 [1, 1]), .mutate (.addEdge 2 3 [1, 1])]).computeParetoFronts
        [3] 0 [] 6).map (fun r => r.2) = some [[], [], [], [[2]]] ∧
    ((Graph.default : Graph Int).applyBuilds
        [.setNumNodes 4, .mutate (.addEdge 0 1 [1, 5]), .mutate (.addEdge 0 2 [5, 1]),
          .mutate (.addEdge 1 3 [1, 1]), .mutate (.addEdge 2 3 [1, 1])]).n_objectives = 1 :=
  ⟨by decide, (labels_have_objective_count _).1⟩

end ObjectiveCount

section IncrementalClaims

variable {α : Type} [LinearOrderedAddCommGroup α]

theorem extends_refl (g : Graph α) (new_obj : List α) (st : Incremental α) :
    Extends g new_obj st st := by
  intro v
  exact ⟨[], by simp, fun p hp => by cases hp⟩

theorem extends_trans {g : Graph α} {new_obj : List α} {a b c : Incremental α}
    (h1 : Extends g new_obj a b) (h2 : Extends g new_obj b c) : Extends g new_obj a c := by
  intro v
  obtain ⟨t1, e1, q1⟩ := h1 v
  obtain ⟨t2, e2, q2⟩ := h2 v
  refine ⟨t1 ++ t2, by rw [e2, e1, List.append_assoc], ?_⟩
  intro p hp
  rcases List.mem_append.mp hp with h | h
  · exact q1 p h
  · exact q2 p h

theorem propagateEdge_extends (g : Graph α) (new_obj : List α) (i : Nat) (st : Incremental α)
    (e : Edge α) (he : e ∈ g.neighbors i) :
    Extends g new_obj st (propagateEdge new_obj i st e) := by
  unfold propagateEdge
  simp only
  split
  · intro v
    by_cases hv : v = e.to_
    · refine ⟨[⟨new_obj, [i, e.to_]⟩], by simp [hv], ?_⟩
      intro p hp
      have : p = ⟨new_obj, [i, e.to_]⟩ := by simpa using hp
      rw [this, hv]
      exact ⟨rfl, i, ⟨e, he, rfl⟩, rfl⟩
    · exact ⟨[], by simp [hv], fun p hp => by cases hp⟩
  · exact extends_refl g new_obj st

theorem propagateNode_extends (g : Graph α) (new_obj : List α) (st : Incremental α) (i : Nat) :
    Extends g new_obj st (propagateNode g new_obj st i) := by
  unfold propagateNode
  split
  · exact foldl_preserves (fun st1 => Extends g new_obj st st1) (propagateEdge new_obj i)
      (g.neighbors i)
      (fun st1 e he h1 => extends_trans h1 (propagateEdge_extends g new_obj i st1 e he)) st
      (extends_refl g new_obj st)
  · exact extends_refl g new_obj st

theorem incrementalLoop_extends (g : Graph α) (new_obj : List α) (max_nodes : Nat)
    (st : Incremental α) : Extends g new_obj st (incrementalLoop g new_obj max_nodes st) := by
  unfold incrementalLoop
  exact foldl_preserves (fun st1 => Extends g new_obj st st1) (propagateNode g new_obj)
    (List.range max_nodes)
    (fun st1 i _ h1 => extends_trans h1 (propagateNode_extends g new_obj st1 i)) st
    (extends_refl g new_obj st)

/-- C17. Incremental propagation never shrinks a front.  For every state of `paretoPaths` and
of the dirty flags, after the incremental loop (nodes taken in sequential order) the front of
every node `v` is the front before the loop followed by appended paths: nothing is removed,
replaced or reordered. -/
theorem incrementalLoop_appends (g : Graph α) (new_obj : List α) (max_nodes : Nat)
    (st : Incremental α) (v : Nat) :
    ∃ t, (incrementalLoop g new_obj max_nodes st).paretoPaths v = st.paretoPaths v ++ t := by
  obtain ⟨t, ht, _⟩ := incrementalLoop_extends g new_obj max_nodes st v
  exact ⟨t, ht⟩

/-- C18, as amended.  In the incremental loop the candidate for a dirty node `u` and an
outgoing edge `u -> v` has the fixed objectives `new_obj` and the nodes `[u, v]`: it is this
path that is tested with `isNonDominated` against `front(v)` and appended when accepted, so
every path the loop appends to `front(v)` has objectives `new_obj` and nodes `[u, v]` for an
edge `u -> v`.  The labels of `u` and the weights of the edge are not read. -/
theorem incrementalLoop_candidate (g : Graph α) (new_obj : List α) (max_nodes : Nat)
    (st : Incremental α) :
    (∀ i (st1 : Incremental α) (e : Edge α),
      (isNonDominated ⟨new_obj, [i, e.to_]⟩ (st1.paretoPaths e.to_) = true →
        (propagateEdge new_obj i st1 e).paretoPaths e.to_ =
          st1.paretoPaths e.to_ ++ [⟨new_obj, [i, e.to_]⟩]) ∧
      (isNonDominated ⟨new_obj, [i, e.to_]⟩ (st1.paretoPaths e.to_) = false →
        propagateEdge new_obj i st1 e = st1)) ∧
    ∀ v, ∃ t, (incrementalLoop g new_obj max_nodes st).paretoPaths v = st.paretoPaths v ++ t ∧
      ∀ p ∈ t, p.objectives = new_obj ∧
        ∃ u, (∃ e ∈ g.neighbors u, e.to_ = v) ∧ p.nodes = [u, v] := by
  refine ⟨?_, incrementalLoop_extends g new_obj max_nodes st⟩
  intro i st1 e
  constructor
  · intro h
    simp [propagateEdge, h]
  · intro h
    simp [propagateEdge, h]

/-- C18, counterexample.  Node 0 is dirty and holds the label `[5,5]`, the edge `0->1` has
weights `[2,3]` and `new_obj = [1,1]`: the loop appends the path with objectives `[1,1]` to
the front of node 1, and `[1,1]` is not the sum of a label of node 0 and the edge weights. -/
theorem incrementalLoop_constant_candidate :
    (incrementalLoop twoNodes [1, 1] 2 twoNodesState).paretoPaths 1 =
      [{ objectives := [1, 1], nodes := [0, 1] }] ∧
    twoNodes.neighbors 0 = [⟨1, [2, 3]⟩] ∧
    ∀ l ∈ twoNodesState.paretoPaths 0, newCost 2 l.objectives [2, 3] ≠ [1, 1] := by
  decide

end IncrementalClaims

/-! ## Termination and single push -/

section TerminationClaim

variable {α : Type} [LinearOrderedAddCommGroup α]

theorem relax_push (m : Nat) (cost : Cost α) (st : Fronts α × Frontier α) (e : Edge α) :
    (relax m cost st e).2 = pushedBy m cost st e ++ st.2 := by
  unfold pushedBy
  cases h : isDominatedIn (frontAt st.1 e.to_) (newCost m cost e.weights)
  · rw [relax_accepted m cost st e h]; simp
  · rw [relax_rejected m cost st e h]; simp

theorem isDominatedIn_of_mem {pf : List (Cost α)} {c : Cost α} (h : c ∈ pf) :
    isDominatedIn pf c = true := by
  unfold isDominatedIn
  rw [List.any_eq_true]
  exact ⟨c, h, by simp⟩

/-- A relaxation pushes nothing and changes nothing, or pushes its candidate once and puts
it into the front of the edge target, where it was not before. -/
theorem relax_single_push (m : Nat) (cost : Cost α) (st : Fronts α × Frontier α) (e : Edge α)
    (hto : e.to_ < st.1.length) :
    (pushedBy m cost st e = [] ∧ relax m cost st e = st) ∨
    (pushedBy m cost st e = [(newCost m cost e.weights, e.to_)] ∧
      newCost m cost e.weights ∉ frontAt st.1 e.to_ ∧
      newCost m cost e.weights ∈ frontAt (relax m cost st e).1 e.to_ ∧
      (relax m cost st e).2 = (newCost m cost e.weights, e.to_) :: st.2) := by
  cases h : isDominatedIn (frontAt st.1 e.to_) (newCost m cost e.weights)
  · right
    refine ⟨by simp [pushedBy, h], ?_, ?_, ?_⟩
    · intro hmem
      rw [isDominatedIn_of_mem hmem] at h
      cases h
    · rw [relax_accepted m cost st e h, frontAt_set, if_pos ⟨rfl, hto⟩]
      simp
    · rw [relax_accepted m cost st e h]
  · left
    exact ⟨by simp [pushedBy, h], relax_rejected m cost st e h⟩

theorem relaxTraced_inv (g : Graph α) (cost : Cost α)
    (t : (Fronts α × Frontier α) × Frontier α) (e : Edge α) (hto : e.to_ < g.n_nodes)
    (h : TraceInv g t) : TraceInv g (relaxTraced g.n_objectives cost t e) := by
  obtain ⟨hsize, hlen, hent, hnd⟩ := h
  have hto2 : e.to_ < t.1.1.length := by rw [hsize]; exact hto
  unfold relaxTraced
  refine ⟨by rw [relax_length]; exact hsize, relax_lenInv _ cost t.1 e hlen, ?_, ?_⟩
  · intro q hq
    simp only at hq ⊢
    rcases List.mem_append.mp hq with h1 | h1
    · unfold pushedBy at h1
      split at h1
      · cases h1
      · have hq2 : q = (newCost g.n_objectives cost e.weights, e.to_) := by simpa using h1
        rw [hq2]
        exact ⟨length_newCost _ _ _, relax_cov_new _ cost t.1 e hlen hto2⟩
    · exact ⟨(hent q h1).1, relax_cov_mono _ cost t.1 e hlen _ _ (hent q h1).2⟩
  · simp only
    unfold pushedBy
    cases hd : isDominatedIn (frontAt t.1.1 e.to_) (newCost g.n_objectives cost e.weights)
    · simp only [Bool.false_eq_true, if_false, List.singleton_append]
      refine List.nodup_cons.mpr ⟨?_, hnd⟩
      intro hmem
      have hc := (hent _ hmem).2
      rw [← isDominatedIn_iff_cov hlen _ _ (length_newCost _ _ _), hd] at hc
      cases hc
    · simpa using hnd

theorem foldl_relaxTraced_fst (m : Nat) (cost : Cost α) (l : List (Edge α))
    (t : (Fronts α × Frontier α) × Frontier α) :
    (l.foldl (relaxTraced m cost) t).1 = l.foldl (relax m cost) t.1 := by
  induction l generalizing t with
  | nil => rfl
  | cons e es ih =>
    rw [List.foldl_cons, List.foldl_cons, ih]
    rfl

theorem stepTraced_fst (g : Graph α) (t : (Fronts α × Frontier α) × Frontier α) :
    (stepTraced g t).map Prod.fst = step g t.1 := by
  unfold stepTraced step
  cases hp : pqPop t.1.2 with
  | none => rfl
  | some r =>
    obtain ⟨⟨cost, u⟩, rest⟩ := r
    simp only [Option.map_some']
    rw [foldl_relaxTraced_fst]

theorem stepTraced_inv (g : Graph α) (hwf : WellFormed g)
    (t t1 : (Fronts α × Frontier α) × Frontier α) (hs : stepTraced g t = some t1)
    (h : TraceInv g t) : TraceInv g t1 := by
  unfold stepTraced at hs
  cases hp : pqPop t.1.2 with
  | none => rw [hp] at hs; cases hs
  | some r =>
    obtain ⟨⟨cost, u⟩, rest⟩ := r
    rw [hp] at hs
    simp only [Option.some.injEq] at hs
    obtain ⟨_, _, hrest, _⟩ := pqPop_some t.1.2 (cost, u) rest hp
    have h0 : TraceInv g ((t.1.1, rest), t.2) :=
      ⟨h.1, ⟨h.2.1.1, fun q hq => h.2.1.2 q (hrest q hq)⟩, h.2.2.1, h.2.2.2⟩
    rw [← hs]
    exact foldl_preserves (TraceInv g) (relaxTraced g.n_objectives cost) (g.adj u)
      (fun t2 e he h2 => relaxTraced_inv g cost t2 e (hwf.target_lt he) h2) _ h0

theorem initTraced_inv (g : Graph α) (s : Nat) (hs : s < g.n_nodes) :
    TraceInv g (initTraced g s) := by
  have hinv := init_inv g s
  refine ⟨hinv.size, hinv.len, ?_, ?_⟩
  · intro q hq
    have hq2 : q = (zeros g.n_objectives, s) := by
      simpa [initTraced, initState, pqPush] using hq
    rw [hq2]
    exact ⟨length_zeros _, (init_closed g s hs).src⟩
  · simp [initTraced, initState, pqPush]

theorem iterateTraced_inv (g : Graph α) (s : Nat) (hwf : WellFormed g) (hs : s < g.n_nodes)
    (k : Nat) (t : (Fronts α × Frontier α) × Frontier α)
    (h : iterateTraced g (initTraced g s) k = some t) : TraceInv g t := by
  induction k generalizing t with
  | zero =>
    simp only [iterateTraced, Option.some.injEq] at h
    rw [← h]; exact initTraced_inv g s hs
  | succ k ih =>
    simp only [iterateTraced] at h
    cases hk : iterateTraced g (initTraced g s) k with
    | none => rw [hk] at h; cases h
    | some t0 =>
      rw [hk] at h
      exact stepTraced_inv g hwf t0 t h (ih t0 hk)

theorem iterateTraced_fst (g : Graph α) (t : (Fronts α × Frontier α) × Frontier α) (k : Nat) :
    (iterateTraced g t k).map Prod.fst = iterate g t.1 k := by
  induction k with
  | zero => rfl
  | succ k ih =>
    simp only [iterateTraced, iterate]
    cases hk : iterateTraced g t k with
    | none =>
      rw [hk] at ih
      rw [← ih]
      rfl
    | some t1 =>
      rw [hk] at ih
      rw [← ih]
      exact stepTraced_fst g t1

theorem iterate_succ (g : Graph α) (st : Fronts α × Frontier α) (k : Nat) :
    iterate g st (k + 1) = (iterate g st k).bind (step g) := by
  simp only [iterate]
  cases iterate g st k <;> rfl

theorem iterate_front (g : Graph α) (st : Fronts α × Frontier α) (k : Nat) :
    iterate g st (k + 1) = (step g st).bind (fun st1 => iterate g st1 k) := by
  induction k with
  | zero =>
    rw [iterate_succ]
    simp only [iterate, Option.some_bind]
    cases step g st <;> rfl
  | succ k ih =>
    rw [iterate_succ, ih]
    cases hs : step g st with
    | none => rfl
    | some st1 =>
      simp only [Option.some_bind]
      rw [iterate_succ]

/-- A result of the bounded loop is reached after finitely many iterations, with an empty
frontier. -/
theorem mainLoop_iterate (g : Graph α) :
    ∀ (fuel : Nat) (st : Fronts α × Frontier α) (fr : Fronts α),
      mainLoop g fuel st = some fr →
      ∃ k st1, k < fuel ∧ iterate g st k = some st1 ∧ st1.2 = [] ∧ st1.1 = fr := by
  intro fuel
  induction fuel with
  | zero => intro st fr h; simp [mainLoop] at h
  | succ n ih =>
    intro st fr h
    simp only [mainLoop] at h
    cases hs : step g st with
    | none =>
      rw [hs] at h
      simp only [Option.some.injEq] at h
      have hpq : st.2 = [] := by
        unfold step at hs
        cases hp : pqPop st.2 with
        | none => exact pqPop_none _ hp
        | some r => rw [hp] at hs; cases hs
      exact ⟨0, st, Nat.succ_pos n, rfl, hpq, h⟩
    | some st1 =>
      rw [hs] at h
      obtain ⟨k, st2, hk, hit, hpq, hfr⟩ := ih st1 fr h
      refine ⟨k + 1, st2, by omega, ?_, hpq, hfr⟩
      rw [iterate_front, hs]
      exact hit

/-- C16. Termination of the batch engine.  For a well-formed graph with non-negative weights
and a source `s < n` (zero-cost cycles allowed), the main loop stops: the bounded loop
returns within `fuelBound g s` iterations, that is, after fewer than `fuelBound g s` pops the
frontier is empty.  Every relaxation pushes nothing, or pushes its candidate exactly once
together with putting it into the front; and over the whole run no entry is pushed twice. -/
theorem computeParetoFronts_terminates (g : Graph α) (s : Nat) (hwf : WellFormed g)
    (hnn : NonNegWeights g) (hs : s < g.n_nodes) :
    (∃ fr, mainLoop g (fuelBound g s) (initState g s) = some fr) ∧
    (∃ k st, k < fuelBound g s ∧ iterate g (initState g s) k = some st ∧ st.2 = []) ∧
    (∀ cost (st : Fronts α × Frontier α) (e : Edge α), e.to_ < st.1.length →
      (pushedBy g.n_objectives cost st e = [] ∧ relax g.n_objectives cost st e = st) ∨
      (pushedBy g.n_objectives cost st e = [(newCost g.n_objectives cost e.weights, e.to_)] ∧
        newCost g.n_objectives cost e.weights ∉ frontAt st.1 e.to_ ∧
        newCost g.n_objectives cost e.weights ∈
          frontAt (relax g.n_objectives cost st e).1 e.to_ ∧
        (relax g.n_objectives cost st e).2 =
          (newCost g.n_objectives cost e.weights, e.to_) :: st.2)) ∧
    (∀ k t, iterateTraced g (initTraced g s) k = some t →
      iterate g (initState g s) k = some t.1 ∧ t.2.Nodup) := by
  obtain ⟨fr, hfr⟩ := mainLoop_terminates_init g s hwf hnn hs
  refine ⟨⟨fr, hfr⟩, ?_, ?_, ?_⟩
  · obtain ⟨k, st1, hk, hit, hpq, _⟩ := mainLoop_iterate g _ _ fr hfr
    exact ⟨k, st1, hk, hit, hpq⟩
  · intro cost st e hto
    exact relax_single_push g.n_objectives cost st e hto
  · intro k t ht
    constructor
    · have := iterateTraced_fst g (initTraced g s) k
      rw [ht] at this
      exact this.symm
    · exact (iterateTraced_inv g s hwf hs k t ht).2.2.2

theorem computeParetoFronts_terminates_witness :
    (∃ fr, mainLoop diamond (fuelBound diamond 0) (initState diamond 0) = some fr) ∧
    (∃ k st, k < fuelBound diamond 0 ∧ iterate diamond (initState diamond 0) k = some st ∧
      st.2 = []) ∧
    (∀ cost (st : Fronts Int × Frontier Int) (e : Edge Int), e.to_ < st.1.length →
      (pushedBy diamond.n_objectives cost st e = [] ∧
        relax diamond.n_objectives cost st e = st) ∨
      (pushedBy diamond.n_objectives cost st e =
          [(newCost diamond.n_objectives cost e.weights, e.to_)] ∧
        newCost diamond.n_objectives cost e.weights ∉ frontAt st.1 e.to_ ∧
        newCost diamond.n_objectives cost e.weights ∈
          frontAt (relax diamond.n_objectives cost st e).1 e.to_ ∧
        (relax diamond.n_objectives cost st e).2 =
          (newCost diamond.n_objectives cost e.weights, e.to_) :: st.2)) ∧
    (∀ k t, iterateTraced diamond (initTraced diamond 0) k = some t →
      iterate diamond (initState diamond 0) k = some t.1 ∧ t.2.Nodup) :=
  computeParetoFronts_terminates diamond 0 (by unfold WellFormed; decide)
    (by unfold NonNegWeights; decide) (by decide)

/-- The record of pushes of the scenario run after its five iterations: the five accepted
labels, each once. -/
theorem iterateTraced_diamond :
    (iterateTraced diamond (initTraced diamond 0) 5).map Prod.snd =
      some [([6, 2], 3), ([2, 6], 3), ([5, 1], 2), ([1, 5], 1), ([0, 0], 0)] := by
  decide

end TerminationClaim

end Mosp
